import Mathlib

/-!
# MinHash sketch of libtwiddle (`src/twiddle/hash/minhash.c`)

A shallow embedding of the sketch operations `tw_minhash_new`, `tw_minhash_copy`,
`tw_minhash_clone`, `tw_minhash_add`, `tw_minhash_estimate`, `tw_minhash_equal` and
`tw_minhash_merge`, followed by theorems about them.

Conventions of the embedding.

* A `uint32_t` is a `Nat`; every place where the C code wraps is written `% 2 ^ 32`.
* The register buffer is a `List Nat` holding the whole allocation, that is the
  `n_registers` registers followed by the padding up to the cache-line multiple.
* A C pointer that may be `NULL` is an `Option`.
* Every operation that touches memory returns an `Option`: `none` means that the code
  accessed the register buffer outside of its allocation (undefined behaviour in C).
* The preprocessor symbols `USE_AVX512`, `USE_AVX2` and `USE_AVX`, which are defined
  outside of `minhash.c`, are the fields of `BuildConfig`; every operation takes the
  configuration as its first argument and follows the `#ifdef` chain of its C body.
* `src` arguments are `const` and the two objects of a binary call are distinct.
-/

namespace Twiddle

/-! ## Build configuration -/

/-- The three preprocessor symbols tested by `minhash.c`. -/
structure BuildConfig where
  USE_AVX512 : Bool
  USE_AVX2 : Bool
  USE_AVX : Bool
  deriving DecidableEq, Repr

/-- Build with none of the symbols defined: every `#else` branch is compiled. -/
def scalarBuild : BuildConfig := ⟨false, false, false⟩

/-- Build with `USE_AVX` only (`__m128i`, four lanes). -/
def avxBuild : BuildConfig := ⟨false, false, true⟩

/-- Build with `USE_AVX2` and `USE_AVX` (`__m256i`, eight lanes). -/
def avx2Build : BuildConfig := ⟨false, true, true⟩

/-- Build with `USE_AVX512`, `USE_AVX2` and `USE_AVX` (`__m512i`, sixteen lanes). -/
def avx512Build : BuildConfig := ⟨true, true, true⟩

/-- `sizeof(simd_t)` of the branch selected by the chain
`#ifdef USE_AVX512 / #elif USE_AVX2 / #elif USE_AVX / #else` used by `tw_minhash_add`,
`tw_minhash_estimate` and `tw_minhash_merge`; `none` is the scalar `#else` branch. -/
def simdSize (cfg : BuildConfig) : Option Nat :=
  if cfg.USE_AVX512 then some 64
  else if cfg.USE_AVX2 then some 32
  else if cfg.USE_AVX then some 16
  else none

/-- `sizeof(simd_t)` of the branch selected by the chain `#ifdef USE_AVX2 / #elif USE_AVX /
#else` of `tw_minhash_equal`, which has no `USE_AVX512` branch. -/
def simdSizeEq (cfg : BuildConfig) : Option Nat :=
  if cfg.USE_AVX2 then some 32
  else if cfg.USE_AVX then some 16
  else none

/-! ## Constants and helpers of `macrology.h` -/

/-- `sizeof(uint32_t)`. -/
def TW_BYTES_PER_MINHASH_REGISTER : Nat := 4

/-- The default seed handed to the hash primitive. -/
def TW_MINHASH_DEFAULT_SEED : Nat := 18014475172444421775

/-- Modelled from the spec: `TW_CACHELINE` of `macrology.h`, which is not among the
sources; the spec gives a cache-line size of 64 bytes. -/
def TW_CACHELINE : Nat := 64

/-- Modelled from the spec: `TW_ALLOC_TO_CACHELINE` of `macrology.h`, which is not among
the sources; the spec says that the size is rounded up to a multiple of the cache-line
size. -/
def TW_ALLOC_TO_CACHELINE (bytes : Nat) : Nat :=
  (bytes + TW_CACHELINE - 1) / TW_CACHELINE * TW_CACHELINE

/-- Modelled from the spec: `tw_max` of `macrology.h`, which is not among the sources; the
spec describes the update as a maximum, here of two unsigned values. -/
def tw_max (x y : Nat) : Nat := if x < y then y else x

/-! ## Memory -/

/-- Read of `p[i]` in a `uint32_t` buffer. -/
def load (m : List Nat) (i : Nat) : Option Nat := m[i]?

/-- Write of `p[i] = v` in a `uint32_t` buffer. -/
def store (m : List Nat) (i v : Nat) : Option (List Nat) :=
  if i < m.length then some (m.set i v) else none

/-- Read of `p[v]` where `p` views the buffer as vectors of `lanes` registers. -/
def vload (lanes : Nat) (m : List Nat) (v : Nat) : Option (List Nat) :=
  if (v + 1) * lanes ≤ m.length then some ((m.drop (v * lanes)).take lanes) else none

/-- Write of `p[v] = x` where `p` views the buffer as vectors of `lanes` registers. -/
def vstore (lanes : Nat) (m : List Nat) (v : Nat) (x : List Nat) : Option (List Nat) :=
  if (v + 1) * lanes ≤ m.length then
    some (m.take (v * lanes) ++ x.take lanes ++ m.drop ((v + 1) * lanes))
  else none

/-- Lane-wise unsigned maximum (`_mm_max_epu32` and its wider forms). -/
def simd_max (x y : List Nat) : List Nat := List.zipWith max x y

/-- Lane-wise wrapping addition (`_mm_add_epi32` and its wider forms). -/
def simd_add (x y : List Nat) : List Nat := List.zipWith (fun p q => (p + q) % 2 ^ 32) x y

/-- Lane-wise comparison (`_mm_cmpeq_epi32` and its wider forms): all ones when equal. -/
def simd_cmpeq (x y : List Nat) : List Nat :=
  List.zipWith (fun p q => if p = q then 2 ^ 32 - 1 else 0) x y

/-- Broadcast of one 32-bit value (`_mm_set1_epi32` and its wider forms). -/
def simd_set1 (lanes v : Nat) : List Nat := List.replicate lanes (v % 2 ^ 32)

/-- The zero vector (`_mm_setzero_si128` and its wider forms). -/
def simd_setzero (lanes : Nat) : List Nat := List.replicate lanes 0

/-- Modelled from the spec: `tw_mm_equal` and `tw_mm256_equal` of `macrology.h`, which is
not among the sources; the equality check compares whole vectors for identical values. -/
def tw_mm_equal (x y : List Nat) : Bool := decide (x = y)

/-- The loop `for (i = start; i < bound; i += step) body`, with the loop state threaded
through `body`. The first argument bounds the number of iterations; `bound` iterations
are enough as soon as `step` is positive. -/
def forLoop {σ : Type} (bound step : Nat) (body : Nat → σ → Option σ) :
    Nat → Nat → σ → Option σ
  | 0, i, s => if i < bound then none else some s
  | fuel + 1, i, s =>
    if i < bound then (body i s).bind (forLoop bound step body fuel (i + step)) else some s

/-! ## The sketch -/

/-- The C structure `struct tw_minhash`: the register count and the register buffer. -/
structure tw_minhash where
  n_registers : Nat
  registers : List Nat
  deriving DecidableEq, Repr

/-- Outcome of a call on `(src, dst)`: whether the returned pointer is `dst` (otherwise it
is `NULL`), and the two objects after the call. -/
structure BinResult where
  returns_dst : Bool
  src : Option tw_minhash
  dst : Option tw_minhash
  deriving DecidableEq, Repr

/-- The function `tw_minhash_new`; the two flags say whether `calloc` and `malloc_aligned`
succeed. -/
def tw_minhash_new (calloc_ok malloc_ok : Bool) (n_registers : Nat) : Option tw_minhash :=
  if n_registers = 0 then none
  else if !calloc_ok then none
  else
    let data_size := TW_ALLOC_TO_CACHELINE (n_registers * TW_BYTES_PER_MINHASH_REGISTER)
    if !malloc_ok then none
    else some ⟨n_registers, List.replicate (data_size / TW_BYTES_PER_MINHASH_REGISTER) 0⟩

/-- The call `memcpy(dst, src, n * sizeof(uint32_t))` on two register buffers. -/
def memcpy (dst src : List Nat) (n : Nat) : Option (List Nat) :=
  if n ≤ src.length ∧ n ≤ dst.length then some (src.take n ++ dst.drop n) else none

/-- The function `tw_minhash_copy`. -/
def tw_minhash_copy (src dst : Option tw_minhash) : Option BinResult :=
  match src, dst with
  | some s, some d =>
    if s.n_registers ≠ d.n_registers then some ⟨false, src, dst⟩
    else
      (memcpy d.registers s.registers s.n_registers).map fun r =>
        ⟨true, src, some ⟨d.n_registers, r⟩⟩
  | _, _ => some ⟨false, src, dst⟩

/-- The function `tw_minhash_clone`: `src` of the result is the argument after the call,
`dst` is the freshly allocated object and `returns_dst` says whether it is returned. -/
def tw_minhash_clone (calloc_ok malloc_ok : Bool) (hash : Option tw_minhash) :
    Option BinResult :=
  match hash with
  | none => some ⟨false, none, none⟩
  | some h =>
    match tw_minhash_new calloc_ok malloc_ok h.n_registers with
    | none => some ⟨false, hash, none⟩
    | some copy => tw_minhash_copy hash (some copy)

/-! ## Register update -/

/-- The scalar loop of `tw_minhash_add` (the `#else` branch). -/
def add_scalar (a b n_registers : Nat) (registers : List Nat) : Option (List Nat) :=
  forLoop n_registers 1
    (fun i regs =>
      let hashed_i := (a + i * b) % 2 ^ 32
      (load regs i).bind fun r => store regs i (tw_max r hashed_i))
    n_registers 0 registers

/-- One step `p_dst[i+j] = simd_max(acc[j], p_dst[i+j]); acc[j] = simd_add(acc[j], inc)` of
`MINH_ADD_LOOP`; the state is the table `aib` (viewed as `acc`) and the registers. -/
def add_simd_step (vec_elts : Nat) (inc : List Nat) (i j : Nat)
    (st : List Nat × List Nat) : Option (List Nat × List Nat) :=
  (vload vec_elts st.1 j).bind fun accj =>
  (vload vec_elts st.2 (i + j)).bind fun d =>
  (vstore vec_elts st.2 (i + j) (simd_max accj d)).bind fun regs =>
  (vstore vec_elts st.1 j (simd_add accj inc)).bind fun aib =>
  some (aib, regs)

/-- The body of `MINH_ADD_LOOP` for a vector type of `simd_size` bytes. -/
def add_simd (simd_size a b n_registers : Nat) (registers : List Nat) : Option (List Nat) :=
  let vec_elts := simd_size / 4
  let unroll_cnt := 16 * 4 / simd_size
  let aib := (List.range (unroll_cnt * vec_elts)).map fun i => (a + i * b) % 2 ^ 32
  let inc := simd_set1 vec_elts (unroll_cnt * vec_elts * b)
  let n_vectors := n_registers * 4 / simd_size
  (forLoop n_vectors unroll_cnt
    (fun i st => forLoop unroll_cnt 1 (add_simd_step vec_elts inc i) unroll_cnt 0 st)
    n_vectors 0 (aib, registers)).map Prod.snd

/-- The function `tw_minhash_add`. The hash primitive `tw_metrohash_64` is external and is
a parameter; its result is a `uint64_t`. The key is absent (`NULL`) or a byte string whose
length is `key_size`. The result is the sketch after the call. -/
def tw_minhash_add (cfg : BuildConfig) (tw_metrohash_64 : Nat → List Nat → Nat)
    (hash : Option tw_minhash) (key : Option (List Nat)) : Option (Option tw_minhash) :=
  match hash, key with
  | some h, some k =>
    if k.length = 0 then some hash
    else
      let hashed := tw_metrohash_64 TW_MINHASH_DEFAULT_SEED k % 2 ^ 64
      let a := hashed % 2 ^ 32
      let b := hashed / 2 ^ 32 % 2 ^ 32
      let n_registers := h.n_registers
      let regs :=
        match simdSize cfg with
        | some simd_size => add_simd simd_size a b n_registers h.registers
        | none => add_scalar a b n_registers h.registers
      regs.map fun r => some ⟨h.n_registers, r⟩
  | _, _ => some hash

/-! ## Similarity estimate -/

/-- The scalar loop of `tw_minhash_estimate`: the final value of `n_registers_eq`. -/
def est_scalar (n_registers : Nat) (ra rb : List Nat) : Option Nat :=
  forLoop n_registers 1
    (fun i n_registers_eq =>
      (load ra i).bind fun x => (load rb i).bind fun y =>
        some ((n_registers_eq + (if x = y then 1 else 0)) % 2 ^ 32))
    n_registers 0 0

/-- The body of `MINH_EST_LOOP` for a vector type of `simd_size` bytes: the final value of
`n_registers_eq`. -/
def est_simd (simd_size n_registers : Nat) (ra rb : List Nat) : Option Nat :=
  let lanes := simd_size / 4
  let n_vectors := n_registers * TW_BYTES_PER_MINHASH_REGISTER / simd_size
  (forLoop n_vectors 1
    (fun i acc =>
      (vload lanes ra i).bind fun x => (vload lanes rb i).bind fun y =>
        some (simd_add acc (simd_cmpeq x y)))
    n_vectors 0 (simd_setzero lanes)).bind fun acc =>
  forLoop lanes 1
    (fun i n_registers_eq =>
      (load acc i).bind fun l => some ((n_registers_eq + 2 ^ 32 - l) % 2 ^ 32))
    lanes 0 0

/-- The counter `n_registers_eq` of `tw_minhash_estimate` when the function reaches its
last line. -/
def tw_minhash_estimate_count (cfg : BuildConfig) (a b : tw_minhash) : Option Nat :=
  match simdSize cfg with
  | some simd_size => est_simd simd_size a.n_registers a.registers b.registers
  | none => est_scalar a.n_registers a.registers b.registers

/-- The function `tw_minhash_estimate`. The result is the exact quotient of the two
integers that the C code converts to `float` before dividing; the rounding of `float` is
not part of the embedding. -/
def tw_minhash_estimate (cfg : BuildConfig) (a b : Option tw_minhash) : Option ℚ :=
  match a, b with
  | some x, some y =>
    if x.n_registers ≠ y.n_registers then some 0
    else (tw_minhash_estimate_count cfg x y).map fun c => (c : ℚ) / (x.n_registers : ℚ)
  | _, _ => some 0

/-! ## Equality -/

/-- The scalar loop of `tw_minhash_equal`, which returns `false` at the first mismatch. -/
def eq_scalar (n_registers : Nat) (ra rb : List Nat) : Nat → Nat → Option Bool
  | 0, i => if i < n_registers then none else some true
  | fuel + 1, i =>
    if i < n_registers then
      (load ra i).bind fun x => (load rb i).bind fun y =>
        if x ≠ y then some false else eq_scalar n_registers ra rb fuel (i + 1)
    else some true

/-- The body of `MINH_EQ_LOOP` for vectors of `lanes` registers. -/
def eq_simd (lanes n_vectors : Nat) (ra rb : List Nat) : Nat → Nat → Option Bool
  | 0, i => if i < n_vectors then none else some true
  | fuel + 1, i =>
    if i < n_vectors then
      (vload lanes ra i).bind fun x => (vload lanes rb i).bind fun y =>
        if !tw_mm_equal x y then some false else eq_simd lanes n_vectors ra rb fuel (i + 1)
    else some true

/-- The function `tw_minhash_equal`. -/
def tw_minhash_equal (cfg : BuildConfig) (a b : Option tw_minhash) : Option Bool :=
  match a, b with
  | some x, some y =>
    if x.n_registers ≠ y.n_registers then some false
    else
      let n_registers := x.n_registers
      match simdSizeEq cfg with
      | some simd_size =>
        let n_vectors := n_registers * TW_BYTES_PER_MINHASH_REGISTER / simd_size
        eq_simd (simd_size / 4) n_vectors x.registers y.registers n_vectors 0
      | none => eq_scalar n_registers x.registers y.registers n_registers 0
  | _, _ => some false

/-! ## Merge -/

/-- The scalar loop of `tw_minhash_merge` (the `#else` branch). -/
def merge_scalar (n_registers : Nat) (src dst : List Nat) : Option (List Nat) :=
  forLoop n_registers 1
    (fun i d =>
      (load d i).bind fun x => (load src i).bind fun y => store d i (tw_max x y))
    n_registers 0 dst

/-- One statement `p_dst[k] = simd_max(p_src[k], p_dst[k])` of `MINH_MAX_LOOP`. -/
def merge_simd_at (lanes : Nat) (src : List Nat) (k : Nat) (dst : List Nat) :
    Option (List Nat) :=
  (vload lanes src k).bind fun s => (vload lanes dst k).bind fun d =>
    vstore lanes dst k (simd_max s d)

/-- The body of `MINH_MAX_LOOP` for a vector type of `simd_size` bytes. -/
def merge_simd (simd_size n_registers : Nat) (src dst : List Nat) : Option (List Nat) :=
  let lanes := simd_size / 4
  let n_vectors := n_registers * TW_BYTES_PER_MINHASH_REGISTER / simd_size
  forLoop n_vectors 4
    (fun i d =>
      (merge_simd_at lanes src i d).bind fun d =>
      (merge_simd_at lanes src (i + 1) d).bind fun d =>
      (merge_simd_at lanes src (i + 2) d).bind fun d =>
      merge_simd_at lanes src (i + 3) d)
    n_vectors 0 dst

/-- The function `tw_minhash_merge`. -/
def tw_minhash_merge (cfg : BuildConfig) (src dst : Option tw_minhash) : Option BinResult :=
  match src, dst with
  | some s, some d =>
    if s.n_registers ≠ d.n_registers then some ⟨false, src, dst⟩
    else
      let n_registers := s.n_registers
      let regs :=
        match simdSize cfg with
        | some simd_size => merge_simd simd_size n_registers s.registers d.registers
        | none => merge_scalar n_registers s.registers d.registers
      regs.map fun r => ⟨true, src, some ⟨d.n_registers, r⟩⟩
  | _, _ => some ⟨false, src, dst⟩

/-! ## Vocabulary of the statements -/

/-- The value of `hash->registers[i]`. -/
def tw_minhash.reg (s : tw_minhash) (i : Nat) : Nat := s.registers.getD i 0

/-- The per-register value `h(i) = a + i * b` with 32-bit wraparound, where `a` is the low
and `b` the high half of the 64-bit hash of the key under the default seed. -/
def registerValue (tw_metrohash_64 : Nat → List Nat → Nat) (key : List Nat) (i : Nat) : Nat :=
  (tw_metrohash_64 TW_MINHASH_DEFAULT_SEED key % 2 ^ 64 % 2 ^ 32 +
    i * (tw_metrohash_64 TW_MINHASH_DEFAULT_SEED key % 2 ^ 64 / 2 ^ 32 % 2 ^ 32)) % 2 ^ 32

/-- Number of positions below `n` at which two buffers hold the same value. -/
def countEq (ra rb : List Nat) (n : Nat) : Nat :=
  ((List.range n).filter fun i => decide (ra[i]? = rb[i]?)).length

/-- The sketch obtained from `tw_minhash_new(n)` by adding the keys of a list in order. -/
def sketchOf (cfg : BuildConfig) (tw_metrohash_64 : Nat → List Nat → Nat) (n : Nat)
    (keys : List (List Nat)) : Option (Option tw_minhash) :=
  keys.foldl (fun acc k => acc.bind fun s => tw_minhash_add cfg tw_metrohash_64 s (some k))
    (some (tw_minhash_new true true n))

/-- Number of leading registers that the update loop of `tw_minhash_add` processes in a
build: all of them in the scalar build, whole groups of sixteen in the vector builds. -/
def addCover (cfg : BuildConfig) (n_registers : Nat) : Nat :=
  match simdSize cfg with
  | some simd_size =>
    16 * ((n_registers * 4 / simd_size + 16 * 4 / simd_size - 1) / (16 * 4 / simd_size))
  | none => n_registers

/-- The register buffer is at least as large as the one `tw_minhash_new` allocates for the
register count of the sketch. -/
def tw_minhash.allocated (s : tw_minhash) : Prop :=
  TW_ALLOC_TO_CACHELINE (s.n_registers * TW_BYTES_PER_MINHASH_REGISTER) /
    TW_BYTES_PER_MINHASH_REGISTER ≤ s.registers.length

/-- Number of leading registers that the loop of `tw_minhash_merge` processes in a build:
all of them in the scalar build, whole blocks of four vectors in the vector builds. -/
def mergeCover (cfg : BuildConfig) (n_registers : Nat) : Nat :=
  match simdSize cfg with
  | some simd_size => (n_registers * 4 / simd_size + 3) / 4 * 4 * (simd_size / 4)
  | none => n_registers

/-- Number of equal positions met by lane `q` in the first `v` vectors of `L` lanes. -/
def laneSum (ra rb : List Nat) (L q v : Nat) : Nat :=
  Finset.sum (Finset.range v) (fun u => if ra[u * L + q]? = rb[u * L + q]? then 1 else 0)

/-! ## Loops -/

theorem tw_max_eq_max (x y : Nat) : tw_max x y = max x y := by
  unfold tw_max
  split <;> omega

theorem forLoop_inv {σ : Type} (bound : Nat) (body : Nat → σ → Option σ)
    (P : Nat → σ → Prop)
    (hstep : ∀ k s, k < bound → P k s → ∃ s', body k s = some s' ∧ P (k + 1) s') :
    ∀ fuel i s, bound ≤ i + fuel → i ≤ bound → P i s →
      ∃ s', forLoop bound 1 body fuel i s = some s' ∧ P bound s' := by
  intro fuel
  induction fuel with
  | zero =>
    intro i s hf hi hP
    have : i = bound := by omega
    subst this
    exact ⟨s, by simp [forLoop], hP⟩
  | succ fuel ih =>
    intro i s hf hi hP
    by_cases hlt : i < bound
    · obtain ⟨s1, hb, hP1⟩ := hstep i s hlt hP
      obtain ⟨s2, hl, hP2⟩ := ih (i + 1) s1 (by omega) (by omega) hP1
      exact ⟨s2, by simp [forLoop, hlt, hb, hl], hP2⟩
    · have : i = bound := by omega
      subst this
      exact ⟨s, by simp [forLoop], hP⟩

theorem forLoop_update (n : Nat) (body : Nat → List Nat → Option (List Nat))
    (F : Nat → Nat → Nat)
    (hbody : ∀ k (m : List Nat) (r : Nat), k < n → m[k]? = some r →
      body k m = some (m.set k (F k r)))
    (regs : List Nat) (hlen : n ≤ regs.length) :
    ∃ regs', forLoop n 1 body n 0 regs = some regs' ∧ regs'.length = regs.length ∧
      ∀ j, regs'[j]? = if j < n then (regs[j]?).map (F j) else regs[j]? := by
  have h := forLoop_inv n body
    (fun k m => m.length = regs.length ∧
      ∀ j, m[j]? = if j < k then (regs[j]?).map (F j) else regs[j]?)
    (by
      intro k m hk hP
      obtain ⟨hl, hp⟩ := hP
      have hkm : k < m.length := by omega
      have hr : m[k]? = some regs[k] := by
        rw [hp k]; simp [List.getElem?_eq_getElem (show k < regs.length by omega)]
      refine ⟨_, hbody k m _ hk hr, by simpa using hl, ?_⟩
      intro j
      rw [List.getElem?_set]
      by_cases hjk : k = j
      · subst hjk
        simp [hkm, List.getElem?_eq_getElem (show k < regs.length by omega)]
      · simp only [hjk, if_false, hp j]
        by_cases h1 : j < k
        · simp [h1, show j < k + 1 by omega]
        · simp [h1, show ¬ j < k + 1 by omega])
    n 0 regs (by omega) (by omega) ⟨rfl, by intro j; simp⟩
  obtain ⟨s', h1, h2, h3⟩ := h
  exact ⟨s', h1, h2, h3⟩

/-! ## The scalar loops -/

theorem add_scalar_spec (a b n : Nat) (regs : List Nat) (hlen : n ≤ regs.length) :
    ∃ r, add_scalar a b n regs = some r ∧ r.length = regs.length ∧
      ∀ j, r[j]? = if j < n then (regs[j]?).map (fun x => max x ((a + j * b) % 2 ^ 32))
        else regs[j]? := by
  unfold add_scalar
  apply forLoop_update n _ (fun j x => max x ((a + j * b) % 2 ^ 32)) _ regs hlen
  intro k m r hk hr
  have hkm : k < m.length := by
    rcases Nat.lt_or_ge k m.length with h | h
    · exact h
    · rw [List.getElem?_eq_none h] at hr; cases hr
  simp [load, store, hr, hkm, tw_max_eq_max]

theorem merge_scalar_spec (n : Nat) (src dst : List Nat) (hs : n ≤ src.length)
    (hd : n ≤ dst.length) :
    ∃ r, merge_scalar n src dst = some r ∧ r.length = dst.length ∧
      ∀ j, r[j]? = if j < n then (dst[j]?).map (fun x => max x (src.getD j 0))
        else dst[j]? := by
  unfold merge_scalar
  apply forLoop_update n _ (fun j x => max x (src.getD j 0)) _ dst hd
  intro k m r hk hr
  have hkm : k < m.length := by
    rcases Nat.lt_or_ge k m.length with h | h
    · exact h
    · rw [List.getElem?_eq_none h] at hr; cases hr
  have hks : k < src.length := by omega
  simp [load, store, hr, hkm, tw_max_eq_max, List.getElem?_eq_getElem hks,
    List.getD_eq_getElem?_getD]

theorem countEq_succ (ra rb : List Nat) (n : Nat) :
    countEq ra rb (n + 1) = countEq ra rb n + (if ra[n]? = rb[n]? then 1 else 0) := by
  unfold countEq
  rw [List.range_succ, List.filter_append]
  by_cases h : ra[n]? = rb[n]? <;> simp [h]

theorem countEq_le (ra rb : List Nat) (n : Nat) : countEq ra rb n ≤ n := by
  unfold countEq
  calc _ ≤ (List.range n).length := List.length_filter_le _ _
    _ = n := List.length_range n

theorem est_scalar_spec (n : Nat) (ra rb : List Nat) (hn : n < 2 ^ 32)
    (ha : n ≤ ra.length) (hb : n ≤ rb.length) :
    est_scalar n ra rb = some (countEq ra rb n) := by
  have h := forLoop_inv n
    (fun i n_registers_eq =>
      (load ra i).bind fun x => (load rb i).bind fun y =>
        some ((n_registers_eq + (if x = y then 1 else 0)) % 2 ^ 32))
    (fun k c => c = countEq ra rb k)
    (by
      intro k c hk hc
      have hka : k < ra.length := by omega
      have hkb : k < rb.length := by omega
      refine ⟨(c + (if ra[k] = rb[k] then 1 else 0)) % 2 ^ 32,
        by simp [load, List.getElem?_eq_getElem hka, List.getElem?_eq_getElem hkb], ?_⟩
      have hle := countEq_le ra rb k
      show _ = countEq ra rb (k + 1)
      rw [countEq_succ, hc]
      simp only [List.getElem?_eq_getElem hka, List.getElem?_eq_getElem hkb, Option.some.injEq]
      split <;> omega)
    n 0 0 (by omega) (by omega) (by simp [countEq])
  obtain ⟨c, h1, h2⟩ := h
  unfold est_scalar
  rw [h1, h2]

theorem eq_scalar_spec (n : Nat) (ra rb : List Nat) (ha : n ≤ ra.length)
    (hb : n ≤ rb.length) :
    ∀ fuel i, n ≤ i + fuel →
      ∃ r, eq_scalar n ra rb fuel i = some r ∧
        (r = true ↔ ∀ j, i ≤ j → j < n → ra[j]? = rb[j]?) := by
  intro fuel
  induction fuel with
  | zero =>
    intro i hf
    refine ⟨true, by simp [eq_scalar]; omega, ?_⟩
    simp only [true_iff]
    intro j h1 h2
    omega
  | succ fuel ih =>
    intro i hf
    by_cases hlt : i < n
    · have hia : i < ra.length := by omega
      have hib : i < rb.length := by omega
      by_cases hxy : ra[i] = rb[i]
      · obtain ⟨r, hr, hiff⟩ := ih (i + 1) (by omega)
        refine ⟨r, by simp [eq_scalar, hlt, load, List.getElem?_eq_getElem hia,
          List.getElem?_eq_getElem hib, hxy, hr], ?_⟩
        rw [hiff]
        constructor
        · intro h j h1 h2
          rcases Nat.eq_or_lt_of_le h1 with h3 | h3
          · subst h3
            simp [List.getElem?_eq_getElem hia, List.getElem?_eq_getElem hib, hxy]
          · exact h j h3 h2
        · intro h j h1 h2
          exact h j (by omega) h2
      · refine ⟨false, by simp [eq_scalar, hlt, load, List.getElem?_eq_getElem hia,
          List.getElem?_eq_getElem hib, hxy], ?_⟩
        simp only [Bool.false_eq_true, false_iff]
        intro h
        have := h i (Nat.le_refl i) hlt
        simp [List.getElem?_eq_getElem hia, List.getElem?_eq_getElem hib] at this
        exact hxy this
    · refine ⟨true, by simp [eq_scalar, hlt], ?_⟩
      simp only [true_iff]
      intro j h1 h2
      omega

/-! ## The vector equality loop -/

theorem vload_getElem? (l : Nat) (m : List Nat) (v t : Nat) :
    ((m.drop (v * l)).take l)[t]? = if t < l then m[v * l + t]? else none := by
  rw [List.getElem?_take, List.getElem?_drop]

theorem vload_eq_iff (l : Nat) (ra rb : List Nat) (v : Nat) :
    (ra.drop (v * l)).take l = (rb.drop (v * l)).take l ↔
      ∀ j, v * l ≤ j → j < (v + 1) * l → ra[j]? = rb[j]? := by
  constructor
  · intro h j h1 h2
    have h3 := congrArg (fun x => x[j - v * l]?) h
    simp only [vload_getElem?] at h3
    have h4 : j - v * l < l := by
      have : (v + 1) * l = v * l + l := by ring
      omega
    simpa [h4, show v * l + (j - v * l) = j by omega] using h3
  · intro h
    apply List.ext_getElem?
    intro t
    rw [vload_getElem?, vload_getElem?]
    split
    · next ht =>
      apply h
      · omega
      · have : (v + 1) * l = v * l + l := by ring
        omega
    · rfl

theorem eq_simd_spec (l nv : Nat) (ra rb : List Nat) (ha : nv * l ≤ ra.length)
    (hb : nv * l ≤ rb.length) :
    ∀ fuel i, nv ≤ i + fuel →
      ∃ r, eq_simd l nv ra rb fuel i = some r ∧
        (r = true ↔ ∀ j, i * l ≤ j → j < nv * l → ra[j]? = rb[j]?) := by
  intro fuel
  induction fuel with
  | zero =>
    intro i hf
    refine ⟨true, by simp [eq_simd]; omega, ?_⟩
    simp only [true_iff]
    intro j h1 h2
    have : nv * l ≤ i * l := Nat.mul_le_mul_right l hf
    omega
  | succ fuel ih =>
    intro i hf
    by_cases hlt : i < nv
    · have hle : (i + 1) * l ≤ nv * l := Nat.mul_le_mul_right l hlt
      have hia : (i + 1) * l ≤ ra.length := by omega
      have hib : (i + 1) * l ≤ rb.length := by omega
      have hsplit : (i + 1) * l = i * l + l := by ring
      by_cases hxy : (ra.drop (i * l)).take l = (rb.drop (i * l)).take l
      · obtain ⟨r, hr, hiff⟩ := ih (i + 1) (by omega)
        refine ⟨r, by simp [eq_simd, hlt, vload, hia, hib, hxy, hr, tw_mm_equal], ?_⟩
        rw [hiff]
        rw [vload_eq_iff] at hxy
        constructor
        · intro h j h1 h2
          by_cases h3 : j < (i + 1) * l
          · exact hxy j h1 h3
          · exact h j (by omega) h2
        · intro h j h1 h2
          exact h j (by omega) h2
      · refine ⟨false, by simp [eq_simd, hlt, vload, hia, hib, hxy, tw_mm_equal], ?_⟩
        simp only [Bool.false_eq_true, false_iff]
        intro h
        apply hxy
        rw [vload_eq_iff]
        intro j h1 h2
        exact h j h1 (by omega)
    · refine ⟨true, by simp [eq_simd, hlt], ?_⟩
      simp only [true_iff]
      intro j h1 h2
      have : nv * l ≤ i * l := Nat.mul_le_mul_right l (by omega)
      omega

/-! ## Allocation, copy and equality -/

theorem memcpy_getElem? (dst src : List Nat) (n : Nat) (hs : n ≤ src.length) (j : Nat) :
    (src.take n ++ dst.drop n)[j]? = if j < n then src[j]? else dst[j]? := by
  have hl : (src.take n).length = n := by simp [List.length_take]; omega
  by_cases hj : j < n
  · rw [List.getElem?_append_left (by omega), List.getElem?_take]
    simp [hj]
  · rw [List.getElem?_append_right (by omega), List.getElem?_drop, hl]
    simp [hj, show n + (j - n) = j by omega]

theorem alloc_ge (n : Nat) :
    n ≤ TW_ALLOC_TO_CACHELINE (n * TW_BYTES_PER_MINHASH_REGISTER) /
      TW_BYTES_PER_MINHASH_REGISTER := by
  unfold TW_ALLOC_TO_CACHELINE TW_BYTES_PER_MINHASH_REGISTER TW_CACHELINE
  omega

theorem tw_minhash_new_ok (n : Nat) (hn : 0 < n) :
    tw_minhash_new true true n =
      some ⟨n, List.replicate (TW_ALLOC_TO_CACHELINE (n * TW_BYTES_PER_MINHASH_REGISTER) /
        TW_BYTES_PER_MINHASH_REGISTER) 0⟩ := by
  have : n ≠ 0 := by omega
  simp [tw_minhash_new, this]

theorem equal_of_agree (cfg : BuildConfig) (a b : tw_minhash)
    (hn : a.n_registers = b.n_registers)
    (ha : a.n_registers ≤ a.registers.length) (hb : b.n_registers ≤ b.registers.length)
    (h : ∀ j, j < a.n_registers → a.registers[j]? = b.registers[j]?) :
    tw_minhash_equal cfg (some a) (some b) = some true := by
  have key : ∀ sz : Nat, a.n_registers * TW_BYTES_PER_MINHASH_REGISTER / sz * (sz / 4) ≤
      a.n_registers := by
    intro sz
    unfold TW_BYTES_PER_MINHASH_REGISTER
    calc a.n_registers * 4 / sz * (sz / 4) ≤ a.n_registers * 4 / sz * sz / 4 :=
          Nat.mul_div_le_mul_div_assoc _ _ _
      _ ≤ a.n_registers * 4 / 4 := Nat.div_le_div_right (Nat.div_mul_le_self _ _)
      _ = a.n_registers := by omega
  unfold tw_minhash_equal
  simp only [hn, ne_eq, not_true_eq_false, if_false]
  cases hsz : simdSizeEq cfg with
  | none =>
    obtain ⟨r, hr, hiff⟩ := eq_scalar_spec b.n_registers a.registers b.registers
      (by omega) hb b.n_registers 0 (by omega)
    simp only [hr, Option.some.injEq]
    exact hiff.mpr (fun j _ h2 => h j (by omega))
  | some sz =>
    have hk := key sz
    obtain ⟨r, hr, hiff⟩ := eq_simd_spec (sz / 4)
      (b.n_registers * TW_BYTES_PER_MINHASH_REGISTER / sz) a.registers b.registers
      (by rw [← hn]; omega) (by rw [← hn]; omega)
      (b.n_registers * TW_BYTES_PER_MINHASH_REGISTER / sz) 0 (by omega)
    simp only [hr, Option.some.injEq]
    exact hiff.mpr (fun j _ h2 => h j (by rw [← hn] at h2; omega))

theorem getElem?_eq_of_reg (a b : tw_minhash) (j : Nat) (ha : j < a.registers.length)
    (hb : j < b.registers.length) (h : a.reg j = b.reg j) :
    a.registers[j]? = b.registers[j]? := by
  simp only [tw_minhash.reg, List.getD_eq_getElem?_getD, List.getElem?_eq_getElem ha,
    List.getElem?_eq_getElem hb, Option.getD_some] at h
  simp [List.getElem?_eq_getElem ha, List.getElem?_eq_getElem hb, h]

theorem tw_minhash_copy_spec (src dst : tw_minhash) (hn : src.n_registers = dst.n_registers)
    (hs : src.n_registers ≤ src.registers.length)
    (hd : dst.n_registers ≤ dst.registers.length) :
    ∃ d, tw_minhash_copy (some src) (some dst) = some ⟨true, some src, some d⟩ ∧
      d.n_registers = dst.n_registers ∧ d.registers.length = dst.registers.length ∧
      (∀ i, i < src.n_registers → d.reg i = src.reg i) ∧
      ∀ i, i < src.n_registers → d.registers[i]? = src.registers[i]? := by
  have hagree : ∀ j, j < src.n_registers →
      (src.registers.take src.n_registers ++ dst.registers.drop src.n_registers)[j]? =
        src.registers[j]? := by
    intro j hj
    rw [memcpy_getElem? dst.registers src.registers src.n_registers hs j]
    simp [hj]
  have hlen : (src.registers.take src.n_registers ++
      dst.registers.drop src.n_registers).length = dst.registers.length := by
    simp only [List.length_append, List.length_take, List.length_drop]
    omega
  refine ⟨⟨dst.n_registers, src.registers.take src.n_registers ++
    dst.registers.drop src.n_registers⟩, ?_, rfl, hlen, ?_, hagree⟩
  · have hm : memcpy dst.registers src.registers src.n_registers =
        some (src.registers.take src.n_registers ++
          dst.registers.drop src.n_registers) := by
      simp only [memcpy]
      rw [if_pos ⟨hs, by omega⟩]
    simp only [tw_minhash_copy]
    rw [if_neg (by simpa using hn), hm]
    rfl
  · intro i hi
    simp only [tw_minhash.reg, List.getD_eq_getElem?_getD, hagree i hi]

theorem tw_minhash_clone_spec (src : tw_minhash) (h0 : 0 < src.n_registers)
    (hs : src.n_registers ≤ src.registers.length) :
    ∃ c, tw_minhash_clone true true (some src) = some ⟨true, some src, some c⟩ ∧
      c.n_registers = src.n_registers ∧ c.n_registers ≤ c.registers.length ∧
      (∀ i, i < src.n_registers → c.reg i = src.reg i) ∧
      ∀ i, i < src.n_registers → c.registers[i]? = src.registers[i]? := by
  have hnew := tw_minhash_new_ok src.n_registers h0
  have hge := alloc_ge src.n_registers
  obtain ⟨c, hc, hcn, hcl, hreg, hget⟩ := tw_minhash_copy_spec src
    ⟨src.n_registers, List.replicate (TW_ALLOC_TO_CACHELINE
      (src.n_registers * TW_BYTES_PER_MINHASH_REGISTER) / TW_BYTES_PER_MINHASH_REGISTER) 0⟩
    rfl hs (by simpa using hge)
  refine ⟨c, ?_, hcn, ?_, hreg, hget⟩
  · simp only [tw_minhash_clone, hnew]
    exact hc
  · rw [hcl, hcn]
    simpa using hge

/-! ## The scalar build -/

theorem tw_minhash_add_scalarBuild (H : Nat → List Nat → Nat) (h : tw_minhash)
    (key : List Nat) (hk : key ≠ []) (hlen : h.n_registers ≤ h.registers.length) :
    ∃ s, tw_minhash_add scalarBuild H (some h) (some key) = some (some s) ∧
      s.n_registers = h.n_registers ∧ s.registers.length = h.registers.length ∧
      (∀ i, i < h.n_registers → s.reg i = max (h.reg i) (registerValue H key i)) ∧
      ∀ i, h.n_registers ≤ i → s.registers[i]? = h.registers[i]? := by
  obtain ⟨r, hr, hl, hp⟩ := add_scalar_spec
    (H TW_MINHASH_DEFAULT_SEED key % 2 ^ 64 % 2 ^ 32)
    (H TW_MINHASH_DEFAULT_SEED key % 2 ^ 64 / 2 ^ 32 % 2 ^ 32) h.n_registers h.registers hlen
  have hk0 : key.length ≠ 0 := by
    intro h0
    exact hk (List.length_eq_zero.mp h0)
  refine ⟨⟨h.n_registers, r⟩, ?_, rfl, hl, ?_, ?_⟩
  · simp only [tw_minhash_add, hk0, if_false, simdSize, scalarBuild, hr, Option.map_some']
    simp
  · intro i hi
    have hil : i < h.registers.length := by omega
    simp only [tw_minhash.reg, List.getD_eq_getElem?_getD, hp i, hi, if_true,
      List.getElem?_eq_getElem hil, Option.map_some', Option.getD_some, registerValue]
  · intro i hi
    simp only [hp i, show ¬ i < h.n_registers by omega, if_false]

theorem tw_minhash_merge_scalarBuild (src dst : tw_minhash)
    (hn : src.n_registers = dst.n_registers)
    (hs : src.n_registers ≤ src.registers.length)
    (hd : dst.n_registers ≤ dst.registers.length) :
    ∃ d, tw_minhash_merge scalarBuild (some src) (some dst) = some ⟨true, some src, some d⟩ ∧
      d.n_registers = dst.n_registers ∧ d.registers.length = dst.registers.length ∧
      (∀ i, i < dst.n_registers → d.reg i = max (dst.reg i) (src.reg i)) ∧
      ∀ i, dst.n_registers ≤ i → d.registers[i]? = dst.registers[i]? := by
  obtain ⟨r, hr, hl, hp⟩ := merge_scalar_spec src.n_registers src.registers dst.registers hs
    (by omega)
  refine ⟨⟨dst.n_registers, r⟩, ?_, rfl, hl, ?_, ?_⟩
  · rw [hn] at hr
    simp [tw_minhash_merge, hn, simdSize, scalarBuild, hr]
  · intro i hi
    have hil : i < dst.registers.length := by omega
    simp only [tw_minhash.reg, List.getD_eq_getElem?_getD, hp i, hn, hi, if_true,
      List.getElem?_eq_getElem hil, Option.map_some', Option.getD_some]
  · intro i hi
    simp only [hp i, hn, show ¬ i < dst.n_registers by omega, if_false]

theorem tw_minhash_estimate_scalarBuild (a b : tw_minhash)
    (hn : a.n_registers = b.n_registers) (h32 : a.n_registers < 2 ^ 32)
    (ha : a.n_registers ≤ a.registers.length) (hb : b.n_registers ≤ b.registers.length) :
    tw_minhash_estimate scalarBuild (some a) (some b) =
      some ((countEq a.registers b.registers a.n_registers : ℚ) / (a.n_registers : ℚ)) := by
  have h := est_scalar_spec a.n_registers a.registers b.registers h32 ha (by omega)
  simp only [tw_minhash_estimate, tw_minhash_estimate_count, hn, ne_eq, not_true_eq_false,
    if_false, simdSize, scalarBuild, Bool.false_eq_true]
  rw [hn] at h
  simp [h]

theorem tw_minhash_equal_scalarBuild (a b : tw_minhash)
    (hn : a.n_registers = b.n_registers)
    (ha : a.n_registers ≤ a.registers.length) (hb : b.n_registers ≤ b.registers.length) :
    ∃ r, tw_minhash_equal scalarBuild (some a) (some b) = some r ∧
      (r = true ↔ ∀ i, i < a.n_registers → a.reg i = b.reg i) := by
  obtain ⟨r, hr, hiff⟩ := eq_scalar_spec a.n_registers a.registers b.registers ha (by omega)
    a.n_registers 0 (by omega)
  refine ⟨r, by rw [hn] at hr; simp [tw_minhash_equal, hn, simdSizeEq, scalarBuild, hr], ?_⟩
  rw [hiff]
  constructor
  · intro h i hi
    simp only [tw_minhash.reg, List.getD_eq_getElem?_getD, h i (by omega) hi]
  · intro h i _ hi
    have h1 := h i hi
    have hia : i < a.registers.length := by omega
    have hib : i < b.registers.length := by omega
    simp only [tw_minhash.reg, List.getD_eq_getElem?_getD, List.getElem?_eq_getElem hia,
      List.getElem?_eq_getElem hib, Option.getD_some] at h1
    simp [List.getElem?_eq_getElem hia, List.getElem?_eq_getElem hib, h1]

/-- In the scalar build `tw_minhash_merge` is commutative up to `tw_minhash_equal`. -/
theorem merge_comm_scalarBuild (A B : tw_minhash) (hn : A.n_registers = B.n_registers)
    (ha : A.n_registers ≤ A.registers.length) (hb : B.n_registers ≤ B.registers.length) :
    ∃ B' A', tw_minhash_merge scalarBuild (some A) (some B) =
        some ⟨true, some A, some B'⟩ ∧
      tw_minhash_merge scalarBuild (some B) (some A) = some ⟨true, some B, some A'⟩ ∧
      tw_minhash_equal scalarBuild (some B') (some A') = some true := by
  obtain ⟨B', h1, hBn, hBl, hBr, _⟩ := tw_minhash_merge_scalarBuild A B hn ha hb
  obtain ⟨A', h2, hAn, hAl, hAr, _⟩ := tw_minhash_merge_scalarBuild B A hn.symm hb ha
  refine ⟨B', A', h1, h2, ?_⟩
  apply equal_of_agree scalarBuild B' A' (by omega) (by omega) (by omega)
  intro j hj
  apply getElem?_eq_of_reg B' A' j (by omega) (by omega)
  rw [hBr j (by omega), hAr j (by omega)]
  exact Nat.max_comm _ _

/-- In the scalar build the two groupings of three merges through clones give sketches
that are `tw_minhash_equal`. -/
theorem merge_assoc_scalarBuild (A B C : tw_minhash) (h0 : 0 < A.n_registers)
    (hab : A.n_registers = B.n_registers) (hbc : B.n_registers = C.n_registers)
    (ha : A.n_registers ≤ A.registers.length) (hb : B.n_registers ≤ B.registers.length)
    (hc : C.n_registers ≤ C.registers.length) :
    ∃ B0 B1 C0 C1 C2 C3,
      tw_minhash_clone true true (some B) = some ⟨true, some B, some B0⟩ ∧
      tw_minhash_merge scalarBuild (some A) (some B0) = some ⟨true, some A, some B1⟩ ∧
      tw_minhash_clone true true (some C) = some ⟨true, some C, some C0⟩ ∧
      tw_minhash_merge scalarBuild (some B1) (some C0) = some ⟨true, some B1, some C1⟩ ∧
      tw_minhash_merge scalarBuild (some B) (some C0) = some ⟨true, some B, some C2⟩ ∧
      tw_minhash_merge scalarBuild (some A) (some C2) = some ⟨true, some A, some C3⟩ ∧
      tw_minhash_equal scalarBuild (some C1) (some C3) = some true := by
  obtain ⟨B0, hB0, hB0n, hB0l, hB0r, _⟩ := tw_minhash_clone_spec B (by omega) hb
  obtain ⟨B1, hB1, hB1n, hB1l, hB1r, _⟩ :=
    tw_minhash_merge_scalarBuild A B0 (by omega) ha hB0l
  obtain ⟨C0, hC0, hC0n, hC0l, hC0r, _⟩ := tw_minhash_clone_spec C (by omega) hc
  obtain ⟨C1, hC1, hC1n, hC1l, hC1r, _⟩ :=
    tw_minhash_merge_scalarBuild B1 C0 (by omega) (by omega) hC0l
  obtain ⟨C2, hC2, hC2n, hC2l, hC2r, _⟩ :=
    tw_minhash_merge_scalarBuild B C0 (by omega) hb hC0l
  obtain ⟨C3, hC3, hC3n, hC3l, hC3r, _⟩ :=
    tw_minhash_merge_scalarBuild A C2 (by omega) ha (by omega)
  refine ⟨B0, B1, C0, C1, C2, C3, hB0, hB1, hC0, hC1, hC2, hC3, ?_⟩
  apply equal_of_agree scalarBuild C1 C3 (by omega) (by omega) (by omega)
  intro j hj
  apply getElem?_eq_of_reg C1 C3 j (by omega) (by omega)
  rw [hC1r j (by omega), hC3r j (by omega), hB1r j (by omega), hC2r j (by omega),
    hB0r j (by omega)]
  omega

theorem foldl_max_start (f : List Nat → Nat) (T : List (List Nat)) :
    ∀ x, T.foldl (fun m k => max m (f k)) x = max x (T.foldl (fun m k => max m (f k)) 0) := by
  induction T with
  | nil => intro x; simp
  | cons k T ih =>
    intro x
    simp only [List.foldl_cons]
    rw [ih (max x (f k)), ih (max 0 (f k))]
    omega

theorem add_all_scalarBuild (H : Nat → List Nat → Nat) (keys : List (List Nat))
    (hk : ∀ k ∈ keys, k ≠ []) :
    ∀ s0 : tw_minhash, s0.n_registers ≤ s0.registers.length →
      ∃ s, keys.foldl
          (fun acc k => acc.bind fun s => tw_minhash_add scalarBuild H s (some k))
          (some (some s0)) = some (some s) ∧
        s.n_registers = s0.n_registers ∧ s.registers.length = s0.registers.length ∧
        ∀ i, i < s0.n_registers →
          s.reg i = keys.foldl (fun m k => max m (registerValue H k i)) (s0.reg i) := by
  induction keys with
  | nil =>
    intro s0 _
    exact ⟨s0, rfl, rfl, rfl, fun i _ => rfl⟩
  | cons k keys ih =>
    intro s0 hlen
    obtain ⟨s1, h1, hn1, hl1, hr1, _⟩ :=
      tw_minhash_add_scalarBuild H s0 k (hk k (List.mem_cons_self k keys)) hlen
    obtain ⟨s, h2, hn2, hl2, hr2⟩ :=
      ih (fun k' hk' => hk k' (List.mem_cons_of_mem k hk')) s1 (by omega)
    refine ⟨s, ?_, by omega, by omega, ?_⟩
    · simp only [List.foldl_cons, Option.some_bind, h1]
      exact h2
    · intro i hi
      rw [hr2 i (by omega), hr1 i hi]
      rfl

theorem sketchOf_scalarBuild (H : Nat → List Nat → Nat) (n : Nat) (hn : 0 < n)
    (keys : List (List Nat)) (hk : ∀ k ∈ keys, k ≠ []) :
    ∃ s, sketchOf scalarBuild H n keys = some (some s) ∧ s.n_registers = n ∧
      n ≤ s.registers.length ∧
      ∀ i, i < n → s.reg i = keys.foldl (fun m k => max m (registerValue H k i)) 0 := by
  have hge := alloc_ge n
  obtain ⟨s, h1, h2, h3, h4⟩ := add_all_scalarBuild H keys hk
    ⟨n, List.replicate (TW_ALLOC_TO_CACHELINE (n * TW_BYTES_PER_MINHASH_REGISTER) /
      TW_BYTES_PER_MINHASH_REGISTER) 0⟩ (by simpa using hge)
  refine ⟨s, ?_, h2, ?_, ?_⟩
  · simp only [sketchOf, tw_minhash_new_ok n hn]
    exact h1
  · rw [h3]
    simpa using hge
  · intro i hi
    rw [h4 i hi]
    have hi2 : i < TW_ALLOC_TO_CACHELINE (n * TW_BYTES_PER_MINHASH_REGISTER) /
        TW_BYTES_PER_MINHASH_REGISTER := by omega
    simp [tw_minhash.reg, List.getElem?_replicate, hi2]

/-- In the scalar build merging the sketch of `S` into the sketch of `T` gives a sketch
that is `tw_minhash_equal` to the sketch of `S` followed by `T`. -/
theorem merge_union_scalarBuild (H : Nat → List Nat → Nat) (n : Nat) (hn : 0 < n)
    (S T : List (List Nat)) (hS : ∀ k ∈ S, k ≠ []) (hT : ∀ k ∈ T, k ≠ []) :
    ∃ A B B' C, sketchOf scalarBuild H n S = some (some A) ∧
      sketchOf scalarBuild H n T = some (some B) ∧
      tw_minhash_merge scalarBuild (some A) (some B) = some ⟨true, some A, some B'⟩ ∧
      sketchOf scalarBuild H n (S ++ T) = some (some C) ∧
      tw_minhash_equal scalarBuild (some B') (some C) = some true := by
  obtain ⟨A, hA, hAn, hAl, hAr⟩ := sketchOf_scalarBuild H n hn S hS
  obtain ⟨B, hB, hBn, hBl, hBr⟩ := sketchOf_scalarBuild H n hn T hT
  obtain ⟨C, hC, hCn, hCl, hCr⟩ := sketchOf_scalarBuild H n hn (S ++ T) (by
    intro k hk
    rcases List.mem_append.mp hk with h | h
    · exact hS k h
    · exact hT k h)
  obtain ⟨B', hM, hMn, hMl, hMr, _⟩ :=
    tw_minhash_merge_scalarBuild A B (by omega) (by omega) (by omega)
  refine ⟨A, B, B', C, hA, hB, hM, hC, ?_⟩
  apply equal_of_agree scalarBuild B' C (by omega) (by omega) (by omega)
  intro j hj
  apply getElem?_eq_of_reg B' C j (by omega) (by omega)
  rw [hMr j (by omega), hBr j (by omega), hAr j (by omega), hCr j (by omega),
    List.foldl_append, foldl_max_start (fun k => registerValue H k j) T
      (S.foldl (fun m k => max m (registerValue H k j)) 0)]
  exact Nat.max_comm _ _

/-! ## The vector builds -/

theorem tw_minhash_new_17 :
    tw_minhash_new true true 17 =
      some ⟨17, [0, 0, 0, 0, 0, 0, 0, 0, 0, 0, 0, 0, 0, 0, 0, 0,
        0, 0, 0, 0, 0, 0, 0, 0, 0, 0, 0, 0, 0, 0, 0, 0]⟩ := by
  rfl

theorem tw_minhash_new_8 :
    tw_minhash_new true true 8 =
      some ⟨8, [0, 0, 0, 0, 0, 0, 0, 0, 0, 0, 0, 0, 0, 0, 0, 0]⟩ := by
  rfl

/-- In a build that selects the `__m256i` branch, `MINH_MAX_LOOP` on two sketches of eight
registers whose source buffer holds one cache line reads the vector `p_src[2]`, which lies
beyond the buffer, whatever the registers hold. -/
theorem merge_avx2_overrun (src dst : tw_minhash) (hs : src.n_registers = 8)
    (hd : dst.n_registers = 8) (hl : src.registers.length = 16) :
    tw_minhash_merge avx2Build (some src) (some dst) = none := by
  have h2 : ∀ d, merge_simd_at 8 src.registers 2 d = none := by
    intro d
    simp [merge_simd_at, vload, hl]
  simp only [tw_minhash_merge, hs, hd, ne_eq, not_true_eq_false, if_false]
  have : merge_simd 32 8 src.registers dst.registers = none := by
    simp only [merge_simd, TW_BYTES_PER_MINHASH_REGISTER, forLoop]
    norm_num
    intro a _ b _
    simp [h2]
  simp [simdSize, avx2Build, this]

set_option maxRecDepth 4000 in
theorem add_avx2_new_8 (H : Nat → List Nat → Nat) (x : Nat) (xs : List Nat) :
    ∃ s, sketchOf avx2Build H 8 [x :: xs] = some (some s) ∧ s.n_registers = 8 ∧
      s.registers.length = 16 := by
  simp [sketchOf, tw_minhash_new_8, tw_minhash_add, simdSize, avx2Build, add_simd, forLoop,
    add_simd_step, vload, vstore, simd_max, simd_add, simd_set1, List.range, List.range.loop,
    List.replicate]

/-! ## The vector loops -/

theorem vload_some (L : Nat) (m : List Nat) (v : Nat) (h : (v + 1) * L ≤ m.length) :
    vload L m v = some ((m.drop (v * L)).take L) ∧ ((m.drop (v * L)).take L).length = L := by
  have h2 : (v + 1) * L = v * L + L := by ring
  constructor
  · simp [vload, h]
  · simp only [List.length_take, List.length_drop]
    omega

theorem vstore_some (L : Nat) (m : List Nat) (v : Nat) (x : List Nat)
    (h : (v + 1) * L ≤ m.length) (hx : x.length = L) :
    ∃ m', vstore L m v x = some m' ∧ m'.length = m.length ∧
      ∀ p, m'[p]? = if v * L ≤ p ∧ p < (v + 1) * L then x[p - v * L]? else m[p]? := by
  have h2 : (v + 1) * L = v * L + L := by ring
  have hxt : x.take L = x := by rw [← hx]; exact List.take_length x
  have ht : (m.take (v * L)).length = v * L := by
    simp only [List.length_take]; omega
  refine ⟨m.take (v * L) ++ x ++ m.drop ((v + 1) * L), by simp [vstore, h, hxt], ?_, ?_⟩
  · simp only [List.length_append, List.length_take, List.length_drop]
    omega
  · intro p
    by_cases h1 : p < v * L
    · rw [List.append_assoc, List.getElem?_append_left (by omega), List.getElem?_take]
      simp [h1, show ¬ v * L ≤ p by omega]
    · by_cases h3 : p < (v + 1) * L
      · rw [List.getElem?_append_left (by
          simp only [List.length_append, ht]; omega),
          List.getElem?_append_right (by omega), ht]
        simp [show v * L ≤ p by omega, h3]
      · rw [List.getElem?_append_right (by
          simp only [List.length_append, ht]; omega), List.getElem?_drop]
        simp only [List.length_append, ht, hx]
        rw [show (v + 1) * L + (p - (v * L + L)) = p by omega]
        simp [h3]

theorem forLoop_step_inv {σ : Type} (bound step : Nat) (hstep : 0 < step)
    (body : Nat → σ → Option σ) (P : Nat → σ → Prop)
    (hbody : ∀ t s, t * step < bound → P t s →
      ∃ s', body (t * step) s = some s' ∧ P (t + 1) s') :
    ∀ fuel t s, t ≤ (bound + step - 1) / step → (bound + step - 1) / step ≤ t + fuel →
      P t s →
      ∃ s', forLoop bound step body fuel (t * step) s = some s' ∧
        P ((bound + step - 1) / step) s' := by
  have key : ∀ t, t * step < bound ↔ t < (bound + step - 1) / step := by
    intro t
    have he : (t + 1) * step = t * step + step := by ring
    rw [Nat.lt_iff_add_one_le, Nat.lt_iff_add_one_le, Nat.le_div_iff_mul_le hstep, he]
    omega
  intro fuel
  induction fuel with
  | zero =>
    intro t s h1 h2 hP
    have ht : t = (bound + step - 1) / step := by omega
    have hnot : ¬ t * step < bound := by rw [key]; omega
    refine ⟨s, by simp [forLoop, hnot], ?_⟩
    rw [← ht]; exact hP
  | succ fuel ih =>
    intro t s h1 h2 hP
    by_cases hlt : t * step < bound
    · obtain ⟨s1, hb, hP1⟩ := hbody t s hlt hP
      have hlt2 := (key t).mp hlt
      obtain ⟨s2, hl, hP2⟩ := ih (t + 1) s1 (by omega) (by omega) hP1
      refine ⟨s2, ?_, hP2⟩
      have he : (t + 1) * step = t * step + step := by ring
      rw [he] at hl
      simp [forLoop, hlt, hb, hl]
    · have ht : t = (bound + step - 1) / step := by
        have := (key t).not.mp hlt
        omega
      refine ⟨s, by simp [forLoop, hlt], ?_⟩
      rw [← ht]; exact hP

theorem forLoop_preserves {σ : Type} (bound step : Nat) (body : Nat → σ → Option σ)
    (P : σ → Prop) (hbody : ∀ i s s', body i s = some s' → P s → P s') :
    ∀ fuel i s s', forLoop bound step body fuel i s = some s' → P s → P s' := by
  intro fuel
  induction fuel with
  | zero =>
    intro i s s' h hP
    simp only [forLoop] at h
    split at h
    · cases h
    · cases h; exact hP
  | succ fuel ih =>
    intro i s s' h hP
    simp only [forLoop] at h
    split at h
    · cases hb : body i s with
      | none => rw [hb] at h; cases h
      | some s1 =>
        rw [hb] at h
        exact ih (i + step) s1 s' h (hbody i s s1 hb hP)
    · cases h; exact hP

theorem add_simd_step_spec (L c i j : Nat) (aib regs : List Nat)
    (ha : (j + 1) * L ≤ aib.length) (hr : (i + j + 1) * L ≤ regs.length) :
    ∃ aib' regs', add_simd_step L (List.replicate L c) i j (aib, regs) = some (aib', regs') ∧
      aib'.length = aib.length ∧ regs'.length = regs.length ∧
      (∀ k, aib'[k]? = if j * L ≤ k ∧ k < (j + 1) * L then
          (aib[k]?).map (fun x => (x + c) % 2 ^ 32) else aib[k]?) ∧
      ∀ p, regs'[p]? = if (i + j) * L ≤ p ∧ p < (i + j + 1) * L then
          (aib[j * L + (p - (i + j) * L)]?).bind (fun x => (regs[p]?).map (fun y => max x y))
        else regs[p]? := by
  obtain ⟨hla, hlal⟩ := vload_some L aib j ha
  obtain ⟨hlr, hlrl⟩ := vload_some L regs (i + j) hr
  have hmaxlen : (simd_max ((aib.drop (j * L)).take L)
      ((regs.drop ((i + j) * L)).take L)).length = L := by
    simp only [simd_max, List.length_zipWith, hlal, hlrl, Nat.min_self]
  have haddlen : (simd_add ((aib.drop (j * L)).take L) (List.replicate L c)).length = L := by
    simp only [simd_add, List.length_zipWith, hlal, List.length_replicate, Nat.min_self]
  obtain ⟨regs', hsr, hrl, hrp⟩ := vstore_some L regs (i + j) _ hr hmaxlen
  obtain ⟨aib', hsa, hal, hap⟩ := vstore_some L aib j _ ha haddlen
  have e1 : (j + 1) * L = j * L + L := by ring
  have e2 : (i + j + 1) * L = (i + j) * L + L := by ring
  refine ⟨aib', regs', ?_, hal, hrl, ?_, ?_⟩
  · simp only [add_simd_step, hla, hlr, hsr, hsa, Option.some_bind]
  · intro k
    rw [hap k]
    by_cases hk : j * L ≤ k ∧ k < (j + 1) * L
    · have hq : k - j * L < L := by omega
      simp only [hk, and_self, if_true, simd_add, List.getElem?_zipWith', vload_getElem?, hq,
        List.getElem?_replicate, show j * L + (k - j * L) = k by omega]
      cases aib[k]? <;> simp
    · simp only [hk, if_false]
  · intro p
    rw [hrp p]
    by_cases hp : (i + j) * L ≤ p ∧ p < (i + j + 1) * L
    · have hq : p - (i + j) * L < L := by omega
      simp only [hp, and_self, if_true, simd_max, List.getElem?_zipWith', vload_getElem?, hq,
        show (i + j) * L + (p - (i + j) * L) = p by omega]
      cases aib[j * L + (p - (i + j) * L)]? <;> cases regs[p]? <;> simp
    · simp only [hp, if_false]

theorem wrap_add_stride (a b q : Nat) :
    ((a + q * b) % 2 ^ 32 + 16 * b % 2 ^ 32) % 2 ^ 32 = (a + (16 + q) * b) % 2 ^ 32 := by
  rw [← Nat.add_mod]
  congr 1
  ring

theorem ceil_div_le (nv U : Nat) (hU : 0 < U) : (nv + U - 1) / U ≤ nv := by
  have h : (nv + U - 1) / U < nv + 1 := by
    rw [Nat.div_lt_iff_lt_mul hU]
    have h1 : nv ≤ nv * U := Nat.le_mul_of_pos_right nv hU
    have h2 : (nv + 1) * U = nv * U + U := by ring
    omega
  omega

theorem add_simd_core (L U nv a b : Nat) (hUL : U * L = 16) (regs : List Nat)
    (hlen : 16 * ((nv + U - 1) / U) ≤ regs.length) :
    ∃ A R, forLoop nv U
        (fun i st => forLoop U 1 (add_simd_step L (simd_set1 L (U * L * b)) i) U 0 st)
        nv 0 ((List.range (U * L)).map (fun i => (a + i * b) % 2 ^ 32), regs) = some (A, R) ∧
      R.length = regs.length ∧
      ∀ p, R[p]? = if p < 16 * ((nv + U - 1) / U) then
          (regs[p]?).map (fun x => max x ((a + p * b) % 2 ^ 32)) else regs[p]? := by
  have hU : 0 < U := by
    rcases Nat.eq_zero_or_pos U with h | h
    · rw [h] at hUL; simp at hUL
    · exact h
  have hinc : simd_set1 L (U * L * b) = List.replicate L (16 * b % 2 ^ 32) := by
    simp only [simd_set1, hUL]
  rw [hinc]
  have houter := forLoop_step_inv nv U hU
    (fun i st => forLoop U 1 (add_simd_step L (List.replicate L (16 * b % 2 ^ 32)) i) U 0 st)
    (fun t st => st.1.length = 16 ∧ st.2.length = regs.length ∧
      (∀ k, k < 16 → st.1[k]? = some ((a + (16 * t + k) * b) % 2 ^ 32)) ∧
      ∀ p, st.2[p]? = if p < 16 * t then
        (regs[p]?).map (fun x => max x ((a + p * b) % 2 ^ 32)) else regs[p]?)
    (by
      intro t st ht hP
      obtain ⟨hA, hR, hAv, hRv⟩ := hP
      have hT : t + 1 ≤ (nv + U - 1) / U := by
        rw [Nat.le_div_iff_mul_le hU]
        have : (t + 1) * U = t * U + U := by ring
        omega
      have hinner := forLoop_inv U
        (add_simd_step L (List.replicate L (16 * b % 2 ^ 32)) (t * U))
        (fun j s => s.1.length = 16 ∧ s.2.length = regs.length ∧
          (∀ k, k < 16 → s.1[k]? = some (if k < j * L then (a + (16 * (t + 1) + k) * b) % 2 ^ 32
            else (a + (16 * t + k) * b) % 2 ^ 32)) ∧
          ∀ p, s.2[p]? = if p < 16 * t + j * L then
            (regs[p]?).map (fun x => max x ((a + p * b) % 2 ^ 32)) else regs[p]?)
        (by
          intro j s hj hQ
          obtain ⟨hA', hR', hAv', hRv'⟩ := hQ
          have e0 : (j + 1) * L = j * L + L := by ring
          have e1 : (j + 1) * L ≤ 16 := by
            rw [← hUL]; exact Nat.mul_le_mul_right L hj
          have e2 : (t * U + j) * L = 16 * t + j * L := by
            calc (t * U + j) * L = t * (U * L) + j * L := by ring
              _ = 16 * t + j * L := by rw [hUL]; ring
          have e3 : (t * U + j + 1) * L = 16 * t + j * L + L := by
            calc (t * U + j + 1) * L = (t * U + j) * L + L := by ring
              _ = 16 * t + j * L + L := by rw [e2]
          obtain ⟨A', R', hs, hAl, hRl, hAp, hRp⟩ :=
            add_simd_step_spec L (16 * b % 2 ^ 32) (t * U) j s.1 s.2 (by omega) (by omega)
          refine ⟨(A', R'), hs, by simpa [hAl] using hA', by simpa [hRl] using hR', ?_, ?_⟩
          · intro k hk
            show A'[k]? = _
            rw [hAp k, hAv' k hk]
            by_cases h1 : j * L ≤ k ∧ k < (j + 1) * L
            · simp only [h1, and_self, if_true, show ¬ k < j * L by omega, if_false,
                show k < (j + 1) * L by omega, Option.map_some']
              rw [wrap_add_stride]
              congr 2
              ring
            · simp only [h1, if_false]
              by_cases h2 : k < j * L
              · simp [h2, show k < (j + 1) * L by omega]
              · simp [h2, show ¬ k < (j + 1) * L by omega]
          · intro p
            show R'[p]? = _
            rw [hRp p, e2, e3]
            by_cases h1 : 16 * t + j * L ≤ p ∧ p < 16 * t + j * L + L
            · have hk : j * L + (p - (16 * t + j * L)) < 16 := by omega
              have hpl : p < regs.length := by omega
              simp only [h1, and_self, if_true, hAv' _ hk, hRv' p,
                show ¬ j * L + (p - (16 * t + j * L)) < j * L by omega,
                show ¬ p < 16 * t + j * L by omega, if_false,
                show p < 16 * t + (j + 1) * L by omega, Option.some_bind,
                List.getElem?_eq_getElem hpl, Option.map_some', Option.some.injEq,
                show 16 * t + (j * L + (p - (16 * t + j * L))) = p by omega]
              exact Nat.max_comm _ _
            · simp only [h1, if_false, hRv' p]
              by_cases h2 : p < 16 * t + j * L
              · simp [h2, show p < 16 * t + (j + 1) * L by omega]
              · simp [h2, show ¬ p < 16 * t + (j + 1) * L by omega])
        U 0 st (by omega) (by omega)
        ⟨hA, hR, by intro k hk; simpa using hAv k hk, by intro p; simpa using hRv p⟩
      obtain ⟨s', hs', hA', hR', hAv', hRv'⟩ := hinner
      refine ⟨s', hs', hA', hR', ?_, ?_⟩
      · intro k hk
        rw [hAv' k hk, hUL]
        simp [hk]
      · intro p
        rw [hRv' p, hUL]
        rw [show 16 * t + 16 = 16 * (t + 1) by ring])
    nv 0 ((List.range (U * L)).map (fun i => (a + i * b) % 2 ^ 32), regs)
    (Nat.zero_le _) (by have := ceil_div_le nv U hU; omega)
    ⟨by simp [hUL], rfl, by
      intro k hk
      simp [List.getElem?_range (show k < U * L by omega)], by intro p; simp⟩
  obtain ⟨s', hs', _, hR', _, hRv'⟩ := houter
  rw [Nat.zero_mul] at hs'
  exact ⟨s'.1, s'.2, hs', hR', hRv'⟩

/-! ## Every build -/

theorem add_simd_spec (sz a b n : Nat) (hsz : sz = 16 ∨ sz = 32 ∨ sz = 64) (regs : List Nat)
    (hlen : 16 * ((n * 4 / sz + 16 * 4 / sz - 1) / (16 * 4 / sz)) ≤ regs.length) :
    ∃ r, add_simd sz a b n regs = some r ∧ r.length = regs.length ∧
      ∀ p, r[p]? = if p < 16 * ((n * 4 / sz + 16 * 4 / sz - 1) / (16 * 4 / sz)) then
          (regs[p]?).map (fun x => max x ((a + p * b) % 2 ^ 32)) else regs[p]? := by
  have hUL : 16 * 4 / sz * (sz / 4) = 16 := by
    rcases hsz with h | h | h <;> subst h <;> rfl
  obtain ⟨A, R, hs, hl, hp⟩ := add_simd_core (sz / 4) (16 * 4 / sz) (n * 4 / sz) a b hUL regs hlen
  refine ⟨R, ?_, hl, hp⟩
  simp only [add_simd, hs, Option.map_some']

theorem simdSize_cases (cfg : BuildConfig) :
    simdSize cfg = none ∨ simdSize cfg = some 16 ∨ simdSize cfg = some 32 ∨
      simdSize cfg = some 64 := by
  rcases cfg with ⟨a, b, c⟩
  cases a <;> cases b <;> cases c <;> simp [simdSize]

theorem addCover_le_alloc (cfg : BuildConfig) (n : Nat) :
    addCover cfg n ≤ TW_ALLOC_TO_CACHELINE (n * TW_BYTES_PER_MINHASH_REGISTER) /
      TW_BYTES_PER_MINHASH_REGISTER := by
  unfold addCover TW_ALLOC_TO_CACHELINE TW_BYTES_PER_MINHASH_REGISTER TW_CACHELINE
  rcases simdSize_cases cfg with h | h | h | h <;> rw [h] <;> simp only [] <;> omega

theorem allocated_n_le (s : tw_minhash) (h : s.allocated) :
    s.n_registers ≤ s.registers.length :=
  Nat.le_trans (alloc_ge s.n_registers) h

theorem tw_minhash_add_spec (cfg : BuildConfig) (H : Nat → List Nat → Nat) (h : tw_minhash)
    (key : List Nat) (hk : key ≠ []) (hcov : addCover cfg h.n_registers ≤ h.registers.length)
    (hlen : h.n_registers ≤ h.registers.length) :
    ∃ s, tw_minhash_add cfg H (some h) (some key) = some (some s) ∧
      s.n_registers = h.n_registers ∧ s.registers.length = h.registers.length ∧
      ∀ p, s.registers[p]? = if p < addCover cfg h.n_registers then
          (h.registers[p]?).map (fun x => max x (registerValue H key p))
        else h.registers[p]? := by
  have hk0 : key.length ≠ 0 := by
    intro h0
    exact hk (List.length_eq_zero.mp h0)
  rcases simdSize_cases cfg with hc | hc | hc | hc
  · obtain ⟨r, hr, hl, hp⟩ := add_scalar_spec
      (H TW_MINHASH_DEFAULT_SEED key % 2 ^ 64 % 2 ^ 32)
      (H TW_MINHASH_DEFAULT_SEED key % 2 ^ 64 / 2 ^ 32 % 2 ^ 32) h.n_registers h.registers hlen
    refine ⟨⟨h.n_registers, r⟩, ?_, rfl, hl, ?_⟩
    · simp only [tw_minhash_add, hk0, if_false, hc, hr, Option.map_some']
    · intro p
      simp only [addCover, hc, hp p, registerValue]
  all_goals
    simp only [addCover, hc] at hcov
    obtain ⟨r, hr, hl, hp⟩ := add_simd_spec _
      (H TW_MINHASH_DEFAULT_SEED key % 2 ^ 64 % 2 ^ 32)
      (H TW_MINHASH_DEFAULT_SEED key % 2 ^ 64 / 2 ^ 32 % 2 ^ 32) h.n_registers
      (by first | exact Or.inl rfl | exact Or.inr (Or.inl rfl) | exact Or.inr (Or.inr rfl))
      h.registers hcov
    refine ⟨⟨h.n_registers, r⟩, ?_, rfl, hl, ?_⟩
    · simp only [tw_minhash_add, hk0, if_false, hc, hr, Option.map_some']
    · intro p
      simp only [addCover, hc, hp p, registerValue]

theorem merge_simd_at_spec (L : Nat) (src dst : List Nat) (k : Nat)
    (hs : (k + 1) * L ≤ src.length) (hd : (k + 1) * L ≤ dst.length) :
    ∃ d, merge_simd_at L src k dst = some d ∧ d.length = dst.length ∧
      ∀ p, d[p]? = if k * L ≤ p ∧ p < (k + 1) * L then
          (dst[p]?).map (fun x => max x (src.getD p 0)) else dst[p]? := by
  obtain ⟨hls, hlsl⟩ := vload_some L src k hs
  obtain ⟨hld, hldl⟩ := vload_some L dst k hd
  have hmaxlen : (simd_max ((src.drop (k * L)).take L)
      ((dst.drop (k * L)).take L)).length = L := by
    simp only [simd_max, List.length_zipWith, hlsl, hldl, Nat.min_self]
  obtain ⟨d, hsd, hdl, hdp⟩ := vstore_some L dst k _ hd hmaxlen
  have e1 : (k + 1) * L = k * L + L := by ring
  refine ⟨d, by simp only [merge_simd_at, hls, hld, hsd, Option.some_bind], hdl, ?_⟩
  intro p
  rw [hdp p]
  by_cases hp : k * L ≤ p ∧ p < (k + 1) * L
  · have hq : p - k * L < L := by omega
    have hps : p < src.length := by omega
    have hpd : p < dst.length := by omega
    simp only [hp, and_self, if_true, simd_max, List.getElem?_zipWith', vload_getElem?, hq,
      show k * L + (p - k * L) = p by omega, List.getElem?_eq_getElem hps,
      List.getElem?_eq_getElem hpd, Option.map_some', Option.some_bind,
      List.getD_eq_getElem?_getD, Option.getD_some, Option.some.injEq]
    exact Nat.max_comm _ _
  · simp only [hp, if_false]

theorem merge_simd_at_bounds (L : Nat) (src dst d : List Nat) (k : Nat)
    (h : merge_simd_at L src k dst = some d) :
    (k + 1) * L ≤ src.length ∧ (k + 1) * L ≤ dst.length := by
  unfold merge_simd_at vload at h
  by_cases hs : (k + 1) * L ≤ src.length
  · by_cases hd : (k + 1) * L ≤ dst.length
    · exact ⟨hs, hd⟩
    · simp [hs, hd] at h
  · simp [hs] at h

theorem merge_simd_at_mono (L : Nat) (src dst d : List Nat) (k : Nat)
    (h : merge_simd_at L src k dst = some d) :
    d.length = dst.length ∧ ∀ p, dst.getD p 0 ≤ d.getD p 0 := by
  obtain ⟨hs, hd⟩ := merge_simd_at_bounds L src dst d k h
  obtain ⟨d', h', hl, hp⟩ := merge_simd_at_spec L src dst k hs hd
  rw [h] at h'
  cases h'
  refine ⟨hl, ?_⟩
  intro p
  simp only [List.getD_eq_getElem?_getD, hp p]
  split
  · cases dst[p]? <;> simp
  · exact Nat.le_refl _

theorem merge_simd_core (L nv : Nat) (src dst : List Nat)
    (hs : (nv + 3) / 4 * 4 * L ≤ src.length) (hd : (nv + 3) / 4 * 4 * L ≤ dst.length) :
    ∃ r, forLoop nv 4
        (fun i d =>
          (merge_simd_at L src i d).bind fun d =>
          (merge_simd_at L src (i + 1) d).bind fun d =>
          (merge_simd_at L src (i + 2) d).bind fun d =>
          merge_simd_at L src (i + 3) d)
        nv 0 dst = some r ∧
      r.length = dst.length ∧
      ∀ p, r[p]? = if p < (nv + 3) / 4 * 4 * L then
          (dst[p]?).map (fun x => max x (src.getD p 0)) else dst[p]? := by
  have hT : (nv + 4 - 1) / 4 = (nv + 3) / 4 := by omega
  have houter := forLoop_step_inv nv 4 (by decide)
    (fun i d =>
      (merge_simd_at L src i d).bind fun d =>
      (merge_simd_at L src (i + 1) d).bind fun d =>
      (merge_simd_at L src (i + 2) d).bind fun d =>
      merge_simd_at L src (i + 3) d)
    (fun t d => d.length = dst.length ∧
      ∀ p, d[p]? = if p < t * 4 * L then
        (dst[p]?).map (fun x => max x (src.getD p 0)) else dst[p]?)
    (by
      intro t d ht hP
      obtain ⟨hl, hp⟩ := hP
      have hle : (t + 1) * 4 * L ≤ (nv + 3) / 4 * 4 * L := by
        apply Nat.mul_le_mul_right
        omega
      have e0 : (t + 1) * 4 * L = t * 4 * L + 4 * L := by ring
      have e1 : (t * 4 + 1) * L = t * 4 * L + L := by ring
      have e2 : (t * 4 + 1 + 1) * L = t * 4 * L + 2 * L := by ring
      have e3 : (t * 4 + 2 + 1) * L = t * 4 * L + 3 * L := by ring
      have e4 : (t * 4 + 3 + 1) * L = t * 4 * L + 4 * L := by ring
      have e5 : (t * 4 + 2) * L = t * 4 * L + 2 * L := by ring
      have e6 : (t * 4 + 3) * L = t * 4 * L + 3 * L := by ring
      obtain ⟨d1, h1, l1, p1⟩ := merge_simd_at_spec L src d (t * 4) (by omega) (by omega)
      obtain ⟨d2, h2, l2, p2⟩ := merge_simd_at_spec L src d1 (t * 4 + 1) (by omega) (by omega)
      obtain ⟨d3, h3, l3, p3⟩ := merge_simd_at_spec L src d2 (t * 4 + 2) (by omega) (by omega)
      obtain ⟨d4, h4, l4, p4⟩ := merge_simd_at_spec L src d3 (t * 4 + 3) (by omega) (by omega)
      refine ⟨d4, by simp only [h1, h2, h3, h4, Option.some_bind], by omega, ?_⟩
      intro p
      rw [p4 p, p3 p, p2 p, p1 p, hp p]
      simp only [e0, e1, e2, e3, e4, e5, e6]
      by_cases c0 : p < t * 4 * L
      · simp [c0, show ¬ t * 4 * L ≤ p by omega, show ¬ t * 4 * L + L ≤ p by omega,
          show ¬ t * 4 * L + 2 * L ≤ p by omega, show ¬ t * 4 * L + 3 * L ≤ p by omega,
          show p < t * 4 * L + 4 * L by omega]
      · by_cases c1 : p < t * 4 * L + L
        · simp [c0, c1, show t * 4 * L ≤ p by omega, show ¬ t * 4 * L + L ≤ p by omega,
            show ¬ t * 4 * L + 2 * L ≤ p by omega, show ¬ t * 4 * L + 3 * L ≤ p by omega,
            show p < t * 4 * L + 4 * L by omega]
        · by_cases c2 : p < t * 4 * L + 2 * L
          · simp [c0, c1, c2, show t * 4 * L ≤ p by omega, show t * 4 * L + L ≤ p by omega,
              show ¬ t * 4 * L + 2 * L ≤ p by omega, show ¬ t * 4 * L + 3 * L ≤ p by omega,
              show p < t * 4 * L + 4 * L by omega]
          · by_cases c3 : p < t * 4 * L + 3 * L
            · simp [c0, c1, c2, c3, show t * 4 * L ≤ p by omega,
                show t * 4 * L + L ≤ p by omega, show t * 4 * L + 2 * L ≤ p by omega,
                show ¬ t * 4 * L + 3 * L ≤ p by omega, show p < t * 4 * L + 4 * L by omega]
            · by_cases c4 : p < t * 4 * L + 4 * L
              · simp [c0, c1, c2, c3, c4, show t * 4 * L ≤ p by omega,
                  show t * 4 * L + L ≤ p by omega, show t * 4 * L + 2 * L ≤ p by omega,
                  show t * 4 * L + 3 * L ≤ p by omega]
              · simp [c0, c1, c2, c3, c4])
    nv 0 dst (Nat.zero_le _) (by omega) ⟨rfl, by intro p; simp⟩
  obtain ⟨r, hr, hl, hp⟩ := houter
  rw [Nat.zero_mul] at hr
  rw [hT] at hp
  exact ⟨r, hr, hl, hp⟩

theorem tw_minhash_merge_spec (cfg : BuildConfig) (src dst : tw_minhash)
    (hn : src.n_registers = dst.n_registers)
    (hs : mergeCover cfg dst.n_registers ≤ src.registers.length)
    (hd : mergeCover cfg dst.n_registers ≤ dst.registers.length) :
    ∃ d, tw_minhash_merge cfg (some src) (some dst) = some ⟨true, some src, some d⟩ ∧
      d.n_registers = dst.n_registers ∧ d.registers.length = dst.registers.length ∧
      ∀ p, d.registers[p]? = if p < mergeCover cfg dst.n_registers then
          (dst.registers[p]?).map (fun x => max x (src.registers.getD p 0))
        else dst.registers[p]? := by
  cases hc : simdSize cfg with
  | none =>
    simp only [mergeCover, hc] at hs hd
    obtain ⟨r, hr, hl, hp⟩ := merge_scalar_spec dst.n_registers src.registers dst.registers
      hs hd
    refine ⟨⟨dst.n_registers, r⟩, ?_, rfl, hl, ?_⟩
    · simp [tw_minhash_merge, hn, hc, hr]
    · intro p
      simp only [mergeCover, hc, hp p]
  | some sz =>
    simp only [mergeCover, hc] at hs hd
    obtain ⟨r, hr, hl, hp⟩ := merge_simd_core (sz / 4) (dst.n_registers * 4 / sz)
      src.registers dst.registers hs hd
    refine ⟨⟨dst.n_registers, r⟩, ?_, rfl, hl, ?_⟩
    · simp only [tw_minhash_merge, hn, ne_eq, not_true_eq_false, if_false, hc, merge_simd,
        TW_BYTES_PER_MINHASH_REGISTER, hr, Option.map_some']
    · intro p
      simp only [mergeCover, hc, hp p]

theorem merge_simd_mono (sz n : Nat) (src dst r : List Nat)
    (h : merge_simd sz n src dst = some r) :
    r.length = dst.length ∧ ∀ p, dst.getD p 0 ≤ r.getD p 0 := by
  unfold merge_simd at h
  refine forLoop_preserves _ 4 _
    (fun d => d.length = dst.length ∧ ∀ p, dst.getD p 0 ≤ d.getD p 0) ?_ _ 0 dst r h
    ⟨rfl, fun _ => Nat.le_refl _⟩
  intro i s s' hb hP
  obtain ⟨hl, hm⟩ := hP
  cases h1 : merge_simd_at (sz / 4) src i s with
  | none => simp [h1] at hb
  | some d1 =>
    cases h2 : merge_simd_at (sz / 4) src (i + 1) d1 with
    | none => simp [h1, h2] at hb
    | some d2 =>
      cases h3 : merge_simd_at (sz / 4) src (i + 2) d2 with
      | none => simp [h1, h2, h3] at hb
      | some d3 =>
        simp only [h1, h2, h3, Option.some_bind] at hb
        obtain ⟨l1, m1⟩ := merge_simd_at_mono _ _ _ _ _ h1
        obtain ⟨l2, m2⟩ := merge_simd_at_mono _ _ _ _ _ h2
        obtain ⟨l3, m3⟩ := merge_simd_at_mono _ _ _ _ _ h3
        obtain ⟨l4, m4⟩ := merge_simd_at_mono _ _ _ _ _ hb
        refine ⟨by omega, ?_⟩
        intro p
        have := hm p
        have := m1 p
        have := m2 p
        have := m3 p
        have := m4 p
        omega

theorem merge_scalar_mono (n : Nat) (src dst r : List Nat)
    (h : merge_scalar n src dst = some r) :
    r.length = dst.length ∧ ∀ p, dst.getD p 0 ≤ r.getD p 0 := by
  unfold merge_scalar at h
  refine forLoop_preserves _ 1 _
    (fun d => d.length = dst.length ∧ ∀ p, dst.getD p 0 ≤ d.getD p 0) ?_ _ 0 dst r h
    ⟨rfl, fun _ => Nat.le_refl _⟩
  intro i s s' hb hP
  obtain ⟨hl, hm⟩ := hP
  simp only [load, store] at hb
  cases h1 : s[i]? with
  | none => simp [h1] at hb
  | some x =>
    cases h2 : src[i]? with
    | none => simp [h1, h2] at hb
    | some y =>
      simp only [h1, h2, Option.some_bind] at hb
      split at hb
      · cases hb
        refine ⟨by simpa using hl, ?_⟩
        intro p
        have hmp := hm p
        simp only [List.getD_eq_getElem?_getD, List.getElem?_set] at hmp ⊢
        by_cases hip : i = p
        · subst hip
          rw [h1] at hmp
          simp only [Option.getD_some] at hmp
          rename_i hlt
          simp only [hlt, if_true, Option.getD_some, tw_max_eq_max]
          omega
        · simp only [hip, if_false]
          exact hmp
      · cases hb

theorem tw_minhash_merge_mono (cfg : BuildConfig) (src dst : tw_minhash) (r : BinResult)
    (h : tw_minhash_merge cfg (some src) (some dst) = some r) (hr : r.returns_dst = true) :
    ∃ d, r.dst = some d ∧ d.n_registers = dst.n_registers ∧
      d.registers.length = dst.registers.length ∧ ∀ i, dst.reg i ≤ d.reg i := by
  unfold tw_minhash_merge at h
  simp only [] at h
  by_cases hn : src.n_registers = dst.n_registers
  · simp only [hn, ne_eq, not_true_eq_false, if_false] at h
    cases hc : simdSize cfg with
    | none =>
      simp only [hc] at h
      cases hm : merge_scalar dst.n_registers src.registers dst.registers with
      | none => simp [hm] at h
      | some regs =>
        simp only [hm, Option.map_some', Option.some.injEq] at h
        subst h
        obtain ⟨hl, hp⟩ := merge_scalar_mono dst.n_registers src.registers dst.registers
          regs hm
        exact ⟨_, rfl, rfl, hl, fun i => hp i⟩
    | some sz =>
      simp only [hc] at h
      cases hm : merge_simd sz dst.n_registers src.registers dst.registers with
      | none => simp [hm] at h
      | some regs =>
        simp only [hm, Option.map_some', Option.some.injEq] at h
        subst h
        obtain ⟨hl, hp⟩ := merge_simd_mono sz dst.n_registers src.registers dst.registers
          regs hm
        exact ⟨_, rfl, rfl, hl, fun i => hp i⟩
  · simp only [ne_eq, hn, not_false_eq_true, if_true, Option.some.injEq] at h
    subst h
    simp at hr

theorem tw_minhash_ext (a b : tw_minhash) (hn : a.n_registers = b.n_registers)
    (hr : ∀ p : Nat, a.registers[p]? = b.registers[p]?) : a = b := by
  cases a
  cases b
  simp only [tw_minhash.mk.injEq]
  exact ⟨hn, List.ext_getElem? (fun p => hr p)⟩

theorem tw_minhash_add_allocated (cfg : BuildConfig) (H : Nat → List Nat → Nat)
    (h : tw_minhash) (key : List Nat) (hk : key ≠ []) (ha : h.allocated) :
    ∃ s, tw_minhash_add cfg H (some h) (some key) = some (some s) ∧
      s.n_registers = h.n_registers ∧ s.registers.length = h.registers.length ∧
      s.allocated ∧
      ∀ p, s.registers[p]? = if p < addCover cfg h.n_registers then
          (h.registers[p]?).map (fun x => max x (registerValue H key p))
        else h.registers[p]? := by
  obtain ⟨s, h1, h2, h3, h4⟩ := tw_minhash_add_spec cfg H h key hk
    (Nat.le_trans (addCover_le_alloc cfg h.n_registers) ha) (allocated_n_le h ha)
  refine ⟨s, h1, h2, h3, ?_, h4⟩
  unfold tw_minhash.allocated at ha ⊢
  rw [h2, h3]
  exact ha

theorem tw_minhash_add_mono (cfg : BuildConfig) (H : Nat → List Nat → Nat)
    (h : tw_minhash) (key : Option (List Nat)) (ha : h.allocated) :
    ∃ s, tw_minhash_add cfg H (some h) key = some (some s) ∧
      s.n_registers = h.n_registers ∧ ∀ i, h.reg i ≤ s.reg i := by
  rcases key with _ | _ | ⟨x, xs⟩
  · exact ⟨h, rfl, rfl, fun _ => Nat.le_refl _⟩
  · exact ⟨h, rfl, rfl, fun _ => Nat.le_refl _⟩
  · obtain ⟨s, h1, h2, _, _, h4⟩ := tw_minhash_add_allocated cfg H h (x :: xs) (by simp) ha
    refine ⟨s, h1, h2, ?_⟩
    intro i
    simp only [tw_minhash.reg, List.getD_eq_getElem?_getD, h4 i]
    split
    · cases h.registers[i]? <;> simp
    · exact Nat.le_refl _

/-- When the register count is a multiple of sixteen, the batched update loop and the
scalar update loop return the same buffer, for the three vector widths. -/
theorem add_simd_eq_add_scalar (sz a b n : Nat) (hsz : sz = 16 ∨ sz = 32 ∨ sz = 64)
    (regs : List Nat) (h16 : n % 16 = 0) (hlen : n ≤ regs.length) :
    add_simd sz a b n regs = add_scalar a b n regs := by
  have hcov : 16 * ((n * 4 / sz + 16 * 4 / sz - 1) / (16 * 4 / sz)) = n := by
    rcases hsz with h | h | h <;> subst h <;> omega
  obtain ⟨r, hr, hl, hp⟩ := add_simd_spec sz a b n hsz regs (by rw [hcov]; exact hlen)
  obtain ⟨r', hr', hl', hp'⟩ := add_scalar_spec a b n regs hlen
  rw [hr, hr']
  congr 1
  apply List.ext_getElem?
  intro p
  rw [hp p, hp' p, hcov]

theorem countEq_eq_iff (ra rb : List Nat) (n : Nat) :
    countEq ra rb n = n ↔ ∀ i, i < n → ra[i]? = rb[i]? := by
  induction n with
  | zero => simp [countEq]
  | succ n ih =>
    rw [countEq_succ]
    have hle := countEq_le ra rb n
    constructor
    · intro h i hi
      by_cases hc : ra[n]? = rb[n]?
      · simp only [hc, if_true] at h
        rcases Nat.lt_succ_iff_lt_or_eq.mp hi with h1 | h1
        · exact ih.mp (by omega) i h1
        · rw [h1]; exact hc
      · simp only [hc, if_false] at h
        omega
    · intro h
      have h1 : countEq ra rb n = n := ih.mpr (fun i hi => h i (by omega))
      simp [h1, h n (by omega)]

/-- In the scalar build the estimate of a sketch against itself is 1. -/
theorem estimate_self_scalarBuild (a : tw_minhash) (h0 : 0 < a.n_registers)
    (h32 : a.n_registers < 2 ^ 32) (ha : a.n_registers ≤ a.registers.length) :
    tw_minhash_estimate scalarBuild (some a) (some a) = some 1 := by
  rw [tw_minhash_estimate_scalarBuild a a rfl h32 ha ha,
    (countEq_eq_iff a.registers a.registers a.n_registers).mpr (fun _ _ => rfl)]
  have : (a.n_registers : ℚ) ≠ 0 := by
    exact_mod_cast (by omega : a.n_registers ≠ 0)
  rw [div_self this]

/-- In the scalar build `tw_minhash_equal` is true exactly when `tw_minhash_estimate`
counts all positions, and false exactly when the quotient is below 1. -/
theorem equal_iff_count_scalarBuild (a b : tw_minhash) (h0 : 0 < a.n_registers)
    (hn : a.n_registers = b.n_registers) (h32 : a.n_registers < 2 ^ 32)
    (ha : a.n_registers ≤ a.registers.length) (hb : b.n_registers ≤ b.registers.length) :
    ∃ r c, tw_minhash_equal scalarBuild (some a) (some b) = some r ∧
      tw_minhash_estimate_count scalarBuild a b = some c ∧
      tw_minhash_estimate scalarBuild (some a) (some b) =
        some ((c : ℚ) / (a.n_registers : ℚ)) ∧
      (r = true ↔ c = a.n_registers) ∧
      (r = false ↔ (c : ℚ) / (a.n_registers : ℚ) < 1) := by
  obtain ⟨r, hr, hiff⟩ := eq_scalar_spec a.n_registers a.registers b.registers ha (by omega)
    a.n_registers 0 (by omega)
  have hc := est_scalar_spec a.n_registers a.registers b.registers h32 ha (by omega)
  have hle := countEq_le a.registers b.registers a.n_registers
  have hrc : r = true ↔ countEq a.registers b.registers a.n_registers = a.n_registers := by
    rw [hiff, countEq_eq_iff]
    exact ⟨fun h i hi => h i (Nat.zero_le i) hi, fun h i _ hi => h i hi⟩
  have hpos : (0 : ℚ) < (a.n_registers : ℚ) := by exact_mod_cast h0
  refine ⟨r, countEq a.registers b.registers a.n_registers, ?_, ?_, ?_, hrc, ?_⟩
  · rw [hn] at hr
    simp [tw_minhash_equal, hn, simdSizeEq, scalarBuild, hr]
  · simp only [tw_minhash_estimate_count, simdSize, scalarBuild, Bool.false_eq_true, if_false]
    exact hc
  · exact tw_minhash_estimate_scalarBuild a b hn h32 ha hb
  · rw [div_lt_one hpos]
    constructor
    · intro hf
      have : countEq a.registers b.registers a.n_registers ≠ a.n_registers := by
        intro he
        rw [hrc.mpr he] at hf
        cases hf
      exact_mod_cast (by omega : countEq a.registers b.registers a.n_registers <
        a.n_registers)
    · intro hlt
      have hlt' : countEq a.registers b.registers a.n_registers < a.n_registers := by
        exact_mod_cast hlt
      cases r with
      | false => rfl
      | true => have := hrc.mp rfl; omega

/-- In the scalar build merging a sketch into its clone leaves the clone as it is, and
merging a source a second time leaves the destination as it is after the first merge. -/
theorem merge_idempotent_scalarBuild (A dst : tw_minhash) (h0 : 0 < A.n_registers)
    (hn : A.n_registers = dst.n_registers) (ha : A.n_registers ≤ A.registers.length)
    (hd : dst.n_registers ≤ dst.registers.length) :
    (∃ c, tw_minhash_clone true true (some A) = some ⟨true, some A, some c⟩ ∧
      tw_minhash_merge scalarBuild (some A) (some c) = some ⟨true, some A, some c⟩ ∧
      tw_minhash_equal scalarBuild (some c) (some A) = some true) ∧
    (∃ d, tw_minhash_merge scalarBuild (some A) (some dst) = some ⟨true, some A, some d⟩ ∧
      tw_minhash_merge scalarBuild (some A) (some d) = some ⟨true, some A, some d⟩) := by
  constructor
  · obtain ⟨c, hc, hcn, hcl, hcr, hcg⟩ := tw_minhash_clone_spec A h0 ha
    obtain ⟨d, hm, hdn, hdl, hdp⟩ := tw_minhash_merge_spec scalarBuild A c (by omega)
      (by simp only [mergeCover, simdSize, scalarBuild, Bool.false_eq_true, if_false]; omega)
      (by simp only [mergeCover, simdSize, scalarBuild, Bool.false_eq_true, if_false]; omega)
    have hdc : d = c := by
      apply tw_minhash_ext d c hdn
      intro p
      rw [hdp p]
      simp only [mergeCover, simdSize, scalarBuild, Bool.false_eq_true, if_false]
      split
      · next hp =>
        have hpa : p < A.registers.length := by omega
        have hpc : p < c.registers.length := by omega
        have := hcg p (by omega)
        simp only [List.getElem?_eq_getElem hpa, List.getElem?_eq_getElem hpc,
          Option.some.injEq] at this
        simp [List.getElem?_eq_getElem hpa, List.getElem?_eq_getElem hpc, this]
      · rfl
    rw [hdc] at hm
    refine ⟨c, hc, hm, ?_⟩
    exact equal_of_agree scalarBuild c A (by omega) hcl ha (fun j hj => hcg j (by omega))
  · obtain ⟨d, hm, hdn, hdl, hdp⟩ := tw_minhash_merge_spec scalarBuild A dst hn
      (by simp only [mergeCover, simdSize, scalarBuild, Bool.false_eq_true, if_false]; omega)
      (by simp only [mergeCover, simdSize, scalarBuild, Bool.false_eq_true, if_false]; omega)
    obtain ⟨d2, hm2, hd2n, hd2l, hd2p⟩ := tw_minhash_merge_spec scalarBuild A d (by omega)
      (by simp only [mergeCover, simdSize, scalarBuild, Bool.false_eq_true, if_false]; omega)
      (by simp only [mergeCover, simdSize, scalarBuild, Bool.false_eq_true, if_false]; omega)
    have hdd : d2 = d := by
      apply tw_minhash_ext d2 d hd2n
      intro p
      rw [hd2p p, hdn, hdp p]
      split
      · cases dst.registers[p]? <;> simp
      · rfl
    rw [hdd] at hm2
    exact ⟨d, hm, hm2⟩

/-! ## The vector counting loop -/

theorem countEq_add (ra rb : List Nat) (m k : Nat) :
    countEq ra rb (m + k) = countEq ra rb m +
      Finset.sum (Finset.range k) (fun q => if ra[m + q]? = rb[m + q]? then 1 else 0) := by
  induction k with
  | zero => simp
  | succ k ih =>
    rw [show m + (k + 1) = (m + k) + 1 by omega, countEq_succ, ih, Finset.sum_range_succ]
    omega

theorem laneSum_succ (ra rb : List Nat) (L q v : Nat) :
    laneSum ra rb L q (v + 1) =
      laneSum ra rb L q v + (if ra[v * L + q]? = rb[v * L + q]? then 1 else 0) := by
  simp only [laneSum, Finset.sum_range_succ]

theorem laneSum_le (ra rb : List Nat) (L q v : Nat) : laneSum ra rb L q v ≤ v := by
  induction v with
  | zero => simp [laneSum]
  | succ v ih =>
    rw [laneSum_succ]
    split <;> omega

theorem laneSum_total (ra rb : List Nat) (L v : Nat) :
    Finset.sum (Finset.range L) (fun q => laneSum ra rb L q v) = countEq ra rb (v * L) := by
  induction v with
  | zero => simp [laneSum, countEq]
  | succ v ih =>
    have h : (v + 1) * L = v * L + L := by ring
    rw [h, countEq_add, ← ih, ← Finset.sum_add_distrib]
    apply Finset.sum_congr rfl
    intro q _
    exact laneSum_succ ra rb L q v

theorem est_acc_loop (L nv : Nat) (ra rb : List Nat) (h32 : nv < 2 ^ 32)
    (ha : nv * L ≤ ra.length) (hb : nv * L ≤ rb.length) :
    ∃ acc, forLoop nv 1
        (fun i acc =>
          (vload L ra i).bind fun x => (vload L rb i).bind fun y =>
            some (simd_add acc (simd_cmpeq x y)))
        nv 0 (simd_setzero L) = some acc ∧
      acc.length = L ∧
      ∀ q, q < L → acc[q]? = some ((2 ^ 32 - laneSum ra rb L q nv) % 2 ^ 32) := by
  have h := forLoop_inv nv
    (fun i acc =>
      (vload L ra i).bind fun x => (vload L rb i).bind fun y =>
        some (simd_add acc (simd_cmpeq x y)))
    (fun v acc => acc.length = L ∧
      ∀ q, q < L → acc[q]? = some ((2 ^ 32 - laneSum ra rb L q v) % 2 ^ 32))
    (by
      intro v acc hv hP
      obtain ⟨hl, hp⟩ := hP
      have hle : (v + 1) * L ≤ nv * L := Nat.mul_le_mul_right L hv
      obtain ⟨hx, hxl⟩ := vload_some L ra v (by omega)
      obtain ⟨hy, hyl⟩ := vload_some L rb v (by omega)
      have e1 : (v + 1) * L = v * L + L := by ring
      refine ⟨simd_add acc (simd_cmpeq ((ra.drop (v * L)).take L) ((rb.drop (v * L)).take L)),
        by simp only [hx, hy, Option.some_bind], ?_, ?_⟩
      · simp only [simd_add, simd_cmpeq, List.length_zipWith, hl, hxl, hyl, Nat.min_self]
      · intro q hq
        have hqa : v * L + q < ra.length := by omega
        have hqb : v * L + q < rb.length := by omega
        have hs := laneSum_le ra rb L q v
        simp only [simd_add, simd_cmpeq, List.getElem?_zipWith', vload_getElem?, hq, if_true,
          hp q hq, List.getElem?_eq_getElem hqa, List.getElem?_eq_getElem hqb,
          Option.map_some', Option.some_bind, Option.some.injEq, laneSum_succ]
        by_cases he : ra[v * L + q] = rb[v * L + q]
        · simp only [he, if_true]
          omega
        · simp only [he, if_false]
          omega)
    nv 0 (simd_setzero L) (by omega) (by omega)
    ⟨by simp [simd_setzero], by
      intro q hq
      simp [simd_setzero, List.getElem?_replicate, hq, laneSum]⟩
  obtain ⟨acc, h1, h2, h3⟩ := h
  exact ⟨acc, h1, h2, h3⟩

theorem est_simd_core (L nv : Nat) (ra rb : List Nat) (h32 : nv * L < 2 ^ 32)
    (hnv : nv < 2 ^ 32) (ha : nv * L ≤ ra.length) (hb : nv * L ≤ rb.length) :
    ((forLoop nv 1
        (fun i acc =>
          (vload L ra i).bind fun x => (vload L rb i).bind fun y =>
            some (simd_add acc (simd_cmpeq x y)))
        nv 0 (simd_setzero L)).bind fun acc =>
      forLoop L 1
        (fun i n_registers_eq =>
          (load acc i).bind fun l => some ((n_registers_eq + 2 ^ 32 - l) % 2 ^ 32))
        L 0 0) = some (countEq ra rb (nv * L)) := by
  obtain ⟨acc, hacc, hl, hp⟩ := est_acc_loop L nv ra rb hnv ha hb
  rw [hacc, Option.some_bind]
  have htot := laneSum_total ra rb L nv
  have hcle := countEq_le ra rb (nv * L)
  have h := forLoop_inv L
    (fun i n_registers_eq =>
      (load acc i).bind fun l => some ((n_registers_eq + 2 ^ 32 - l) % 2 ^ 32))
    (fun j c => c = Finset.sum (Finset.range j) (fun q => laneSum ra rb L q nv))
    (by
      intro j c hj hc
      have hsub : Finset.sum (Finset.range (j + 1)) (fun q => laneSum ra rb L q nv) ≤
          Finset.sum (Finset.range L) (fun q => laneSum ra rb L q nv) :=
        Finset.sum_le_sum_of_subset (Finset.range_mono hj)
      rw [Finset.sum_range_succ] at hsub
      refine ⟨(c + 2 ^ 32 - (2 ^ 32 - laneSum ra rb L j nv) % 2 ^ 32) % 2 ^ 32,
        by simp only [load, hp j hj, Option.some_bind], ?_⟩
      show _ = Finset.sum (Finset.range (j + 1)) (fun q => laneSum ra rb L q nv)
      rw [Finset.sum_range_succ, ← hc]
      rw [← hc] at hsub
      omega)
    L 0 0 (by omega) (by omega) (by simp)
  obtain ⟨c, h1, h2⟩ := h
  rw [h1, h2, htot]

theorem est_simd_spec (sz n : Nat) (hsz : sz = 16 ∨ sz = 32 ∨ sz = 64) (ra rb : List Nat)
    (h32 : n < 2 ^ 32) (ha : n * 4 / sz * (sz / 4) ≤ ra.length)
    (hb : n * 4 / sz * (sz / 4) ≤ rb.length) :
    est_simd sz n ra rb = some (countEq ra rb (n * 4 / sz * (sz / 4))) := by
  have h1 : n * 4 / sz * (sz / 4) < 2 ^ 32 := by
    rcases hsz with h | h | h <;> subst h <;> omega
  have h2 : n * 4 / sz < 2 ^ 32 := by
    rcases hsz with h | h | h <;> subst h <;> omega
  have h := est_simd_core (sz / 4) (n * 4 / sz) ra rb h1 h2 ha hb
  simp only [est_simd, TW_BYTES_PER_MINHASH_REGISTER]
  exact h

/-- When the register count is a multiple of the lane count, the batched counting loop and
the scalar counting loop return the same count, for the three vector widths. -/
theorem est_simd_eq_est_scalar (sz n : Nat) (hsz : sz = 16 ∨ sz = 32 ∨ sz = 64)
    (ra rb : List Nat) (h32 : n < 2 ^ 32) (hdiv : n % (sz / 4) = 0)
    (ha : n ≤ ra.length) (hb : n ≤ rb.length) :
    est_simd sz n ra rb = est_scalar n ra rb := by
  have hcov : n * 4 / sz * (sz / 4) = n := by
    rcases hsz with h | h | h <;> subst h <;> omega
  rw [est_simd_spec sz n hsz ra rb h32 (by omega) (by omega), hcov,
    est_scalar_spec n ra rb h32 ha hb]

/-- In every build, for a sketch with a non-zero register count whose buffer is as
large as `tw_minhash_new` allocates it: every call of `tw_minhash_add`, whatever the key,
returns with the register count unchanged (hence non-zero) and every register greater than
or equal to its value before the call; every call of `tw_minhash_merge` into the sketch
that returns the destination leaves the register count unchanged (hence non-zero) and
every register greater than or equal to its value before the call; and the merge does
return the destination when the source has the same register count and the registers
that the merge loop of the build processes lie in both buffers. -/
theorem registers_only_move_upward (cfg : BuildConfig) (H : Nat → List Nat → Nat)
    (s : tw_minhash) (h0 : 0 < s.n_registers) (ha : s.allocated) :
    (∀ key, ∃ s', tw_minhash_add cfg H (some s) key = some (some s') ∧
      s'.n_registers = s.n_registers ∧ 0 < s'.n_registers ∧ ∀ i, s.reg i ≤ s'.reg i) ∧
    (∀ src r, tw_minhash_merge cfg (some src) (some s) = some r → r.returns_dst = true →
      ∃ d, r.dst = some d ∧ d.n_registers = s.n_registers ∧ 0 < d.n_registers ∧
        ∀ i, s.reg i ≤ d.reg i) ∧
    (∀ src : tw_minhash, src.n_registers = s.n_registers →
      mergeCover cfg s.n_registers ≤ src.registers.length →
      mergeCover cfg s.n_registers ≤ s.registers.length →
      ∃ r, tw_minhash_merge cfg (some src) (some s) = some r ∧ r.returns_dst = true) := by
  refine ⟨?_, ?_, ?_⟩
  · intro key
    obtain ⟨s', h1, h2, h3⟩ := tw_minhash_add_mono cfg H s key ha
    exact ⟨s', h1, h2, by omega, h3⟩
  · intro src r hr hret
    obtain ⟨d, h1, h2, _, h4⟩ := tw_minhash_merge_mono cfg src s r hr hret
    exact ⟨d, h1, h2, by omega, h4⟩
  · intro src hn hs hd
    obtain ⟨d, h1, _⟩ := tw_minhash_merge_spec cfg src s hn hs hd
    exact ⟨_, h1, rfl⟩

/-- In a build that selects the `__m256i` branch, `tw_minhash_merge` never returns the
destination when the destination has eight registers in a buffer of one cache line,
whatever the source is: the loop reads the vector `p_dst[2]` beyond that buffer. -/
theorem merge_avx2_never_returns_dst (src dst : tw_minhash) (r : BinResult)
    (hd : dst.n_registers = 8) (hl : dst.registers.length = 16)
    (h : tw_minhash_merge avx2Build (some src) (some dst) = some r) :
    r.returns_dst = false := by
  unfold tw_minhash_merge at h
  simp only [] at h
  by_cases hn : src.n_registers = dst.n_registers
  · exfalso
    simp only [hn, ne_eq, not_true_eq_false, if_false, simdSize, avx2Build,
      Bool.false_eq_true, if_true] at h
    cases hm : merge_simd 32 dst.n_registers src.registers dst.registers with
    | none => simp [hm] at h
    | some regs =>
      rw [hd] at hm
      have hm' : ((merge_simd_at 8 src.registers 0 dst.registers).bind fun d =>
          (merge_simd_at 8 src.registers 1 d).bind fun d =>
          (merge_simd_at 8 src.registers 2 d).bind fun d =>
          merge_simd_at 8 src.registers 3 d).bind
          (fun d => some d) = some regs := hm
      cases h1 : merge_simd_at 8 src.registers 0 dst.registers with
      | none => simp [h1] at hm'
      | some d1 =>
        cases h2 : merge_simd_at 8 src.registers 1 d1 with
        | none => simp [h1, h2] at hm'
        | some d2 =>
          cases h3 : merge_simd_at 8 src.registers 2 d2 with
          | none => simp [h1, h2, h3] at hm'
          | some d3 =>
            obtain ⟨l1, _⟩ := merge_simd_at_mono _ _ _ _ _ h1
            obtain ⟨l2, _⟩ := merge_simd_at_mono _ _ _ _ _ h2
            obtain ⟨_, hb⟩ := merge_simd_at_bounds _ _ _ _ _ h3
            omega
  · simp only [ne_eq, hn, not_false_eq_true, if_true, Option.some.injEq] at h
    rw [← h]

/-- In the scalar build every `tw_minhash_merge` of two sketches with equal register
counts returns the destination with the register count unchanged and every register
greater than or equal to its value before the call. -/
theorem merge_only_moves_upward_scalarBuild (src dst : tw_minhash)
    (hn : src.n_registers = dst.n_registers)
    (hs : src.n_registers ≤ src.registers.length)
    (hd : dst.n_registers ≤ dst.registers.length) :
    ∃ d, tw_minhash_merge scalarBuild (some src) (some dst) = some ⟨true, some src, some d⟩ ∧
      d.n_registers = dst.n_registers ∧ ∀ i, dst.reg i ≤ d.reg i := by
  obtain ⟨d, h1, h2, _, _, _⟩ := tw_minhash_merge_scalarBuild src dst hn hs hd
  obtain ⟨d', h3, _, _, h5⟩ := tw_minhash_merge_mono scalarBuild src dst _ h1 rfl
  cases h3
  exact ⟨d, h1, h2, h5⟩

/-! ## Statements of the specification -/

set_option maxRecDepth 4000 in
/-- C1: in a build that defines `USE_AVX`, `tw_minhash_add` on the sketch returned by
`tw_minhash_new(17)` leaves register 16 at zero for every hash primitive and every
non-empty key, whereas the scalar branch of the same function stores
`h(16) = (a + 16 * b) mod 2^32` there, as the claim requires; for a hash value with
`a = 5` and `b = 2` that value is 37. -/
theorem add_avx_skips_register_16 (H : Nat → List Nat → Nat) (x : Nat) (xs : List Nat) :
    (∃ s, tw_minhash_add avxBuild H (tw_minhash_new true true 17) (some (x :: xs)) =
        some (some s) ∧ s.n_registers = 17 ∧ s.reg 16 = 0) ∧
    (∃ s, tw_minhash_add scalarBuild H (tw_minhash_new true true 17) (some (x :: xs)) =
        some (some s) ∧ s.n_registers = 17 ∧ s.reg 16 = registerValue H (x :: xs) 16) ∧
    registerValue (fun _ _ => 0x0000000200000005) (x :: xs) 16 = 37 := by
  refine ⟨?_, ?_, ?_⟩
  · rw [tw_minhash_new_17]
    simp [tw_minhash_add, simdSize, avxBuild, add_simd, forLoop, add_simd_step, vload, vstore,
      simd_max, simd_add, simd_set1, List.range, List.range.loop, List.replicate,
      tw_minhash.reg]
  · rw [tw_minhash_new_17]
    obtain ⟨s, h1, h2, _, h4, _⟩ := tw_minhash_add_scalarBuild H
      ⟨17, [0, 0, 0, 0, 0, 0, 0, 0, 0, 0, 0, 0, 0, 0, 0, 0,
        0, 0, 0, 0, 0, 0, 0, 0, 0, 0, 0, 0, 0, 0, 0, 0]⟩ (x :: xs) (by simp) (by simp)
    refine ⟨s, h1, h2, ?_⟩
    rw [h4 16 (by simp)]
    simp [tw_minhash.reg]
  · unfold registerValue
    norm_num

/-- C2: in a build that defines `USE_AVX`, `tw_minhash_merge` of a source whose 17 registers
all hold 9 into the sketch returned by `tw_minhash_new(17)` updates registers 0 to 15 only:
register 16 of the destination stays at zero, whereas the scalar branch stores
`max(0, 9) = 9` there. -/
theorem merge_avx_skips_register_16 :
    tw_minhash_merge avxBuild (some ⟨17, List.replicate 17 9 ++ List.replicate 15 0⟩)
        (tw_minhash_new true true 17) =
      some ⟨true, some ⟨17, List.replicate 17 9 ++ List.replicate 15 0⟩,
        some ⟨17, List.replicate 16 9 ++ List.replicate 16 0⟩⟩ ∧
    tw_minhash_merge scalarBuild (some ⟨17, List.replicate 17 9 ++ List.replicate 15 0⟩)
        (tw_minhash_new true true 17) =
      some ⟨true, some ⟨17, List.replicate 17 9 ++ List.replicate 15 0⟩,
        some ⟨17, List.replicate 17 9 ++ List.replicate 15 0⟩⟩ := by
  constructor <;> rfl

/-- C3: in a build that defines `USE_AVX2`, for sketches of eight registers built from one
non-empty key each, `tw_minhash_merge(A, B)` reads and writes beyond the register buffers
(one cache line each), so no merged sketch exists that could be compared with the sketch
of the union. -/
theorem merge_after_add_avx2_overrun (H : Nat → List Nat → Nat) (x y : Nat)
    (xs ys : List Nat) :
    ∃ A B, sketchOf avx2Build H 8 [x :: xs] = some (some A) ∧
      sketchOf avx2Build H 8 [y :: ys] = some (some B) ∧
      A.n_registers = 8 ∧ B.n_registers = 8 ∧
      tw_minhash_merge avx2Build (some A) (some B) = none := by
  obtain ⟨A, hA, hn, hl⟩ := add_avx2_new_8 H x xs
  obtain ⟨B, hB, hm, _⟩ := add_avx2_new_8 H y ys
  exact ⟨A, B, hA, hB, hn, hm, merge_avx2_overrun A B hn hm hl⟩

/-- C4: in a build that defines `USE_AVX`, `tw_minhash_estimate` of the sketch returned by
`tw_minhash_new(17)` against itself counts 16 equal positions and returns 16/17, although
all 17 registers are equal; the scalar branch counts 17 and returns 1. -/
theorem estimate_avx_misses_register_16 :
    tw_minhash_estimate_count avxBuild ⟨17, List.replicate 32 0⟩ ⟨17, List.replicate 32 0⟩ =
      some 16 ∧
    tw_minhash_estimate avxBuild (tw_minhash_new true true 17) (tw_minhash_new true true 17) =
      some (16 / 17) ∧
    countEq (List.replicate 32 0) (List.replicate 32 0) 17 = 17 ∧
    tw_minhash_estimate scalarBuild (tw_minhash_new true true 17)
      (tw_minhash_new true true 17) = some 1 := by
  have h1 : tw_minhash_estimate_count avxBuild ⟨17, List.replicate 32 0⟩
      ⟨17, List.replicate 32 0⟩ = some 16 := by rfl
  have h2 : tw_minhash_estimate_count scalarBuild ⟨17, List.replicate 32 0⟩
      ⟨17, List.replicate 32 0⟩ = some 17 := by rfl
  have hn : tw_minhash_new true true 17 = some ⟨17, List.replicate 32 0⟩ := by rfl
  refine ⟨h1, ?_, by rfl, ?_⟩
  · rw [hn]
    simp only [tw_minhash_estimate, h1]
    norm_num
  · rw [hn]
    simp only [tw_minhash_estimate, h2]
    norm_num

/-- C5: in a build that defines `USE_AVX`, `tw_minhash_equal` returns true for two sketches
of 17 registers that differ in register 16 (0 against 1); the scalar branch returns
false. -/
theorem equal_avx_ignores_register_16 :
    tw_minhash_equal avxBuild (some ⟨17, List.replicate 32 0⟩)
      (some ⟨17, List.replicate 16 0 ++ 1 :: List.replicate 15 0⟩) = some true ∧
    (⟨17, List.replicate 32 0⟩ : tw_minhash).reg 16 ≠
      (⟨17, List.replicate 16 0 ++ 1 :: List.replicate 15 0⟩ : tw_minhash).reg 16 ∧
    tw_minhash_equal scalarBuild (some ⟨17, List.replicate 32 0⟩)
      (some ⟨17, List.replicate 16 0 ++ 1 :: List.replicate 15 0⟩) = some false := by
  refine ⟨by rfl, by decide, by rfl⟩

/-- C6: for two sketches whose register counts differ, in every build,
`tw_minhash_estimate` returns 0.0, `tw_minhash_equal` returns false, and `tw_minhash_copy`
and `tw_minhash_merge` return `NULL` and leave both sketches as they were. -/
theorem mismatched_counts_rejected (cfg : BuildConfig) (a b : tw_minhash)
    (h : a.n_registers ≠ b.n_registers) :
    tw_minhash_estimate cfg (some a) (some b) = some 0 ∧
    tw_minhash_equal cfg (some a) (some b) = some false ∧
    tw_minhash_copy (some a) (some b) = some ⟨false, some a, some b⟩ ∧
    tw_minhash_merge cfg (some a) (some b) = some ⟨false, some a, some b⟩ := by
  refine ⟨?_, ?_, ?_, ?_⟩
  · simp [tw_minhash_estimate, h]
  · simp [tw_minhash_equal, h]
  · simp [tw_minhash_copy, h]
  · simp [tw_minhash_merge, h]

theorem mismatched_counts_rejected_witness :
    (⟨1, List.replicate 16 7⟩ : tw_minhash).n_registers ≠
      (⟨2, List.replicate 16 3⟩ : tw_minhash).n_registers ∧
    (tw_minhash_estimate avx2Build (some ⟨1, List.replicate 16 7⟩)
        (some ⟨2, List.replicate 16 3⟩) = some 0 ∧
      tw_minhash_equal avx2Build (some ⟨1, List.replicate 16 7⟩)
        (some ⟨2, List.replicate 16 3⟩) = some false ∧
      tw_minhash_copy (some ⟨1, List.replicate 16 7⟩) (some ⟨2, List.replicate 16 3⟩) =
        some ⟨false, some ⟨1, List.replicate 16 7⟩, some ⟨2, List.replicate 16 3⟩⟩ ∧
      tw_minhash_merge avx2Build (some ⟨1, List.replicate 16 7⟩)
        (some ⟨2, List.replicate 16 3⟩) =
        some ⟨false, some ⟨1, List.replicate 16 7⟩, some ⟨2, List.replicate 16 3⟩⟩) :=
  ⟨by decide, mismatched_counts_rejected avx2Build _ _ (by decide)⟩

/-- C7: `tw_minhash_new(0)` returns no sketch, whatever the allocator does; for `n > 0` and
successful allocations `tw_minhash_new(n)` returns a sketch whose `n_registers` is `n`, whose
buffer holds at least `n` registers and only zeros, so that every register `i < n` is
zero. -/
theorem tw_minhash_new_spec (n : Nat) (hn : 0 < n) :
    (∀ calloc_ok malloc_ok, tw_minhash_new calloc_ok malloc_ok 0 = none) ∧
    ∃ s, tw_minhash_new true true n = some s ∧ s.n_registers = n ∧
      n ≤ s.registers.length ∧ (∀ r ∈ s.registers, r = 0) ∧
      ∀ i, i < n → s.registers[i]? = some 0 ∧ s.reg i = 0 := by
  refine ⟨fun _ _ => by simp [tw_minhash_new], _, tw_minhash_new_ok n hn, rfl, ?_, ?_, ?_⟩
  · simpa using alloc_ge n
  · intro r hr
    exact (List.mem_replicate.mp hr).2
  · intro i hi
    have h := alloc_ge n
    have hi2 : i < TW_ALLOC_TO_CACHELINE (n * TW_BYTES_PER_MINHASH_REGISTER) /
        TW_BYTES_PER_MINHASH_REGISTER := by omega
    simp [tw_minhash.reg, List.getElem?_replicate, hi2]

theorem tw_minhash_new_spec_witness :
    0 < 17 ∧
    ((∀ calloc_ok malloc_ok, tw_minhash_new calloc_ok malloc_ok 0 = none) ∧
    ∃ s, tw_minhash_new true true 17 = some s ∧ s.n_registers = 17 ∧
      17 ≤ s.registers.length ∧ (∀ r ∈ s.registers, r = 0) ∧
      ∀ i, i < 17 → s.registers[i]? = some 0 ∧ s.reg i = 0) :=
  ⟨by decide, tw_minhash_new_spec 17 (by decide)⟩

/-- C8: in every build, for two present sketches with equal register counts whose buffers
hold their registers, `tw_minhash_copy(src, dst)` returns `dst`, leaves `src` as it was,
keeps the register count of `dst`, makes every register of `dst` equal to the register of
`src` at the same index, and `tw_minhash_equal(src, dst)` is then true; and when the
allocations succeed `tw_minhash_clone(src)` of a sketch with a non-zero register count
returns a new sketch with the register count and the registers of `src`, which is
`tw_minhash_equal` to `src`, and leaves `src` as it was. -/
theorem copy_clone_exact (cfg : BuildConfig) (src dst : tw_minhash)
    (hn : src.n_registers = dst.n_registers)
    (hs : src.n_registers ≤ src.registers.length)
    (hd : dst.n_registers ≤ dst.registers.length) :
    (∃ d, tw_minhash_copy (some src) (some dst) = some ⟨true, some src, some d⟩ ∧
      d.n_registers = dst.n_registers ∧
      (∀ i, i < src.n_registers → d.reg i = src.reg i) ∧
      tw_minhash_equal cfg (some src) (some d) = some true) ∧
    (0 < src.n_registers →
      ∃ c, tw_minhash_clone true true (some src) = some ⟨true, some src, some c⟩ ∧
        c.n_registers = src.n_registers ∧
        (∀ i, i < src.n_registers → c.reg i = src.reg i) ∧
        tw_minhash_equal cfg (some src) (some c) = some true) := by
  obtain ⟨d, hd1, hd2, hd3, hd4, hd5⟩ := tw_minhash_copy_spec src dst hn hs hd
  refine ⟨⟨d, hd1, hd2, hd4, ?_⟩, ?_⟩
  · exact equal_of_agree cfg src d (by omega) hs (by omega) (fun j hj => (hd5 j hj).symm)
  · intro h0
    obtain ⟨c, hc1, hc2, hc3, hc4, hc5⟩ := tw_minhash_clone_spec src h0 hs
    exact ⟨c, hc1, hc2, hc4,
      equal_of_agree cfg src c (by omega) hs hc3 (fun j hj => (hc5 j hj).symm)⟩

theorem copy_clone_exact_witness :
    (∃ d, tw_minhash_copy (some ⟨3, [5, 6, 7, 0]⟩) (some ⟨3, [1, 2, 3, 4]⟩) =
        some ⟨true, some ⟨3, [5, 6, 7, 0]⟩, some d⟩ ∧
      d.n_registers = (⟨3, [1, 2, 3, 4]⟩ : tw_minhash).n_registers ∧
      (∀ i, i < (⟨3, [5, 6, 7, 0]⟩ : tw_minhash).n_registers →
        d.reg i = (⟨3, [5, 6, 7, 0]⟩ : tw_minhash).reg i) ∧
      tw_minhash_equal avxBuild (some ⟨3, [5, 6, 7, 0]⟩) (some d) = some true) ∧
    (0 < (⟨3, [5, 6, 7, 0]⟩ : tw_minhash).n_registers →
      ∃ c, tw_minhash_clone true true (some ⟨3, [5, 6, 7, 0]⟩) =
          some ⟨true, some ⟨3, [5, 6, 7, 0]⟩, some c⟩ ∧
        c.n_registers = (⟨3, [5, 6, 7, 0]⟩ : tw_minhash).n_registers ∧
        (∀ i, i < (⟨3, [5, 6, 7, 0]⟩ : tw_minhash).n_registers →
          c.reg i = (⟨3, [5, 6, 7, 0]⟩ : tw_minhash).reg i) ∧
        tw_minhash_equal avxBuild (some ⟨3, [5, 6, 7, 0]⟩) (some c) = some true) :=
  copy_clone_exact avxBuild ⟨3, [5, 6, 7, 0]⟩ ⟨3, [1, 2, 3, 4]⟩ (by decide) (by decide)
    (by decide)

/-- C9: in a build that defines `USE_AVX2`, for two sketches of eight registers (buffers of
one cache line, as `tw_minhash_new(8)` allocates them) both `tw_minhash_merge(A, B)` and
`tw_minhash_merge(B, A)` access the vectors `p_src[2]`, `p_dst[2]`, `p_src[3]` and
`p_dst[3]` beyond the buffers, so neither call yields a sketch; the scalar branch merges
both ways into registers 8, 7, 6, 5, 5, 6, 7, 8 and the results are equal. -/
theorem merge_both_ways_avx2_overrun :
    tw_minhash_merge avx2Build
      (some ⟨8, [1, 2, 3, 4, 5, 6, 7, 8, 0, 0, 0, 0, 0, 0, 0, 0]⟩)
      (some ⟨8, [8, 7, 6, 5, 4, 3, 2, 1, 0, 0, 0, 0, 0, 0, 0, 0]⟩) = none ∧
    tw_minhash_merge avx2Build
      (some ⟨8, [8, 7, 6, 5, 4, 3, 2, 1, 0, 0, 0, 0, 0, 0, 0, 0]⟩)
      (some ⟨8, [1, 2, 3, 4, 5, 6, 7, 8, 0, 0, 0, 0, 0, 0, 0, 0]⟩) = none ∧
    tw_minhash_merge scalarBuild
      (some ⟨8, [1, 2, 3, 4, 5, 6, 7, 8, 0, 0, 0, 0, 0, 0, 0, 0]⟩)
      (some ⟨8, [8, 7, 6, 5, 4, 3, 2, 1, 0, 0, 0, 0, 0, 0, 0, 0]⟩) =
      some ⟨true, some ⟨8, [1, 2, 3, 4, 5, 6, 7, 8, 0, 0, 0, 0, 0, 0, 0, 0]⟩,
        some ⟨8, [8, 7, 6, 5, 5, 6, 7, 8, 0, 0, 0, 0, 0, 0, 0, 0]⟩⟩ ∧
    tw_minhash_merge scalarBuild
      (some ⟨8, [8, 7, 6, 5, 4, 3, 2, 1, 0, 0, 0, 0, 0, 0, 0, 0]⟩)
      (some ⟨8, [1, 2, 3, 4, 5, 6, 7, 8, 0, 0, 0, 0, 0, 0, 0, 0]⟩) =
      some ⟨true, some ⟨8, [8, 7, 6, 5, 4, 3, 2, 1, 0, 0, 0, 0, 0, 0, 0, 0]⟩,
        some ⟨8, [8, 7, 6, 5, 5, 6, 7, 8, 0, 0, 0, 0, 0, 0, 0, 0]⟩⟩ := by
  refine ⟨by rfl, by rfl, by rfl, by rfl⟩

/-- C10: in a build that defines `USE_AVX2`, for sketches of eight registers the first step
of either grouping fails: `tw_minhash_clone(B)` and `tw_minhash_clone(C)` succeed, but
`tw_minhash_merge` of `A` into the clone of `B`, and of `B` into the clone of `C`, access
vectors beyond the buffers of one cache line, so no merged sketch exists to compare. -/
theorem merge_into_clone_avx2_overrun :
    tw_minhash_clone true true (some ⟨8, [8, 7, 6, 5, 4, 3, 2, 1, 0, 0, 0, 0, 0, 0, 0, 0]⟩) =
      some ⟨true, some ⟨8, [8, 7, 6, 5, 4, 3, 2, 1, 0, 0, 0, 0, 0, 0, 0, 0]⟩,
        some ⟨8, [8, 7, 6, 5, 4, 3, 2, 1, 0, 0, 0, 0, 0, 0, 0, 0]⟩⟩ ∧
    tw_minhash_merge avx2Build
      (some ⟨8, [1, 2, 3, 4, 5, 6, 7, 8, 0, 0, 0, 0, 0, 0, 0, 0]⟩)
      (some ⟨8, [8, 7, 6, 5, 4, 3, 2, 1, 0, 0, 0, 0, 0, 0, 0, 0]⟩) = none ∧
    tw_minhash_clone true true (some ⟨8, [9, 9, 0, 0, 9, 9, 0, 0, 0, 0, 0, 0, 0, 0, 0, 0]⟩) =
      some ⟨true, some ⟨8, [9, 9, 0, 0, 9, 9, 0, 0, 0, 0, 0, 0, 0, 0, 0, 0]⟩,
        some ⟨8, [9, 9, 0, 0, 9, 9, 0, 0, 0, 0, 0, 0, 0, 0, 0, 0]⟩⟩ ∧
    tw_minhash_merge avx2Build
      (some ⟨8, [8, 7, 6, 5, 4, 3, 2, 1, 0, 0, 0, 0, 0, 0, 0, 0]⟩)
      (some ⟨8, [9, 9, 0, 0, 9, 9, 0, 0, 0, 0, 0, 0, 0, 0, 0, 0]⟩) = none := by
  refine ⟨by rfl, by rfl, by rfl, by rfl⟩

/-- C11: in a build that defines `USE_AVX2`, for a sketch of eight registers (buffer of one
cache line) `tw_minhash_clone` succeeds, but `tw_minhash_merge` of the sketch into its
clone accesses the vectors `p_src[2]` and `p_dst[2]` beyond the buffers, so the call does
not leave the clone unchanged: it has no defined outcome. The scalar branch returns the
clone with every register as it was. -/
theorem merge_into_own_clone_avx2_overrun :
    tw_minhash_clone true true (some ⟨8, [3, 1, 4, 1, 5, 9, 2, 6, 0, 0, 0, 0, 0, 0, 0, 0]⟩) =
      some ⟨true, some ⟨8, [3, 1, 4, 1, 5, 9, 2, 6, 0, 0, 0, 0, 0, 0, 0, 0]⟩,
        some ⟨8, [3, 1, 4, 1, 5, 9, 2, 6, 0, 0, 0, 0, 0, 0, 0, 0]⟩⟩ ∧
    tw_minhash_merge avx2Build
      (some ⟨8, [3, 1, 4, 1, 5, 9, 2, 6, 0, 0, 0, 0, 0, 0, 0, 0]⟩)
      (some ⟨8, [3, 1, 4, 1, 5, 9, 2, 6, 0, 0, 0, 0, 0, 0, 0, 0]⟩) = none ∧
    tw_minhash_merge scalarBuild
      (some ⟨8, [3, 1, 4, 1, 5, 9, 2, 6, 0, 0, 0, 0, 0, 0, 0, 0]⟩)
      (some ⟨8, [3, 1, 4, 1, 5, 9, 2, 6, 0, 0, 0, 0, 0, 0, 0, 0]⟩) =
      some ⟨true, some ⟨8, [3, 1, 4, 1, 5, 9, 2, 6, 0, 0, 0, 0, 0, 0, 0, 0]⟩,
        some ⟨8, [3, 1, 4, 1, 5, 9, 2, 6, 0, 0, 0, 0, 0, 0, 0, 0]⟩⟩ := by
  refine ⟨by rfl, by rfl, by rfl⟩

/-- C12: in every build, for every sketch whose buffer is as large as `tw_minhash_new`
allocates it and every two non-empty keys, adding `k1` then `k2` and adding `k2` then `k1`
both succeed and give the same register count and the same registers, so that the two
results are `tw_minhash_equal`. -/
theorem add_order_independent (cfg : BuildConfig) (H : Nat → List Nat → Nat) (s : tw_minhash)
    (k1 k2 : List Nat) (h1 : k1 ≠ []) (h2 : k2 ≠ []) (ha : s.allocated) :
    ∃ s1 s12 s2 s21,
      tw_minhash_add cfg H (some s) (some k1) = some (some s1) ∧
      tw_minhash_add cfg H (some s1) (some k2) = some (some s12) ∧
      tw_minhash_add cfg H (some s) (some k2) = some (some s2) ∧
      tw_minhash_add cfg H (some s2) (some k1) = some (some s21) ∧
      s12 = s21 ∧ tw_minhash_equal cfg (some s12) (some s21) = some true := by
  obtain ⟨s1, e1, n1, l1, a1, p1⟩ := tw_minhash_add_allocated cfg H s k1 h1 ha
  obtain ⟨s12, e12, n12, l12, a12, p12⟩ := tw_minhash_add_allocated cfg H s1 k2 h2 a1
  obtain ⟨s2, e2, n2, l2, a2, p2⟩ := tw_minhash_add_allocated cfg H s k2 h2 ha
  obtain ⟨s21, e21, n21, l21, a21, p21⟩ := tw_minhash_add_allocated cfg H s2 k1 h1 a2
  have heq : s12 = s21 := by
    apply tw_minhash_ext s12 s21 (by omega)
    intro p
    rw [p12 p, p21 p, p1 p, p2 p, n1, n2]
    split
    · cases s.registers[p]? with
      | none => rfl
      | some x =>
        simp only [Option.map_some', Option.some.injEq]
        omega
    · rfl
  refine ⟨s1, s12, s2, s21, e1, e12, e2, e21, heq, ?_⟩
  rw [heq]
  exact equal_of_agree cfg s21 s21 rfl (allocated_n_le s21 a21) (allocated_n_le s21 a21)
    (fun _ _ => rfl)

theorem add_order_independent_witness :
    ∃ s1 s12 s2 s21,
      tw_minhash_add avx2Build (fun _ k => k.length * 4294967299 + 7)
        (some ⟨17, List.replicate 32 0⟩) (some [120]) = some (some s1) ∧
      tw_minhash_add avx2Build (fun _ k => k.length * 4294967299 + 7)
        (some s1) (some [121, 122]) = some (some s12) ∧
      tw_minhash_add avx2Build (fun _ k => k.length * 4294967299 + 7)
        (some ⟨17, List.replicate 32 0⟩) (some [121, 122]) = some (some s2) ∧
      tw_minhash_add avx2Build (fun _ k => k.length * 4294967299 + 7)
        (some s2) (some [120]) = some (some s21) ∧
      s12 = s21 ∧ tw_minhash_equal avx2Build (some s12) (some s21) = some true :=
  add_order_independent avx2Build (fun _ k => k.length * 4294967299 + 7)
    ⟨17, List.replicate 32 0⟩ [120] [121, 122] (by decide) (by decide)
    (by unfold tw_minhash.allocated; decide)

/-- C13: in every build, for every sketch whose buffer is as large as `tw_minhash_new`
allocates it and every non-empty key, adding the key a second time succeeds and leaves the
register count and every register as they were after the first addition, so that the two
results are `tw_minhash_equal`. -/
theorem add_idempotent (cfg : BuildConfig) (H : Nat → List Nat → Nat) (s : tw_minhash)
    (k : List Nat) (hk : k ≠ []) (ha : s.allocated) :
    ∃ s1 s11,
      tw_minhash_add cfg H (some s) (some k) = some (some s1) ∧
      tw_minhash_add cfg H (some s1) (some k) = some (some s11) ∧
      s11 = s1 ∧ tw_minhash_equal cfg (some s11) (some s1) = some true := by
  obtain ⟨s1, e1, n1, l1, a1, p1⟩ := tw_minhash_add_allocated cfg H s k hk ha
  obtain ⟨s11, e11, n11, l11, a11, p11⟩ := tw_minhash_add_allocated cfg H s1 k hk a1
  have heq : s11 = s1 := by
    apply tw_minhash_ext s11 s1 (by omega)
    intro p
    rw [p11 p, p1 p, n1]
    split
    · cases s.registers[p]? with
      | none => rfl
      | some x =>
        simp only [Option.map_some', Option.some.injEq]
        omega
    · rfl
  refine ⟨s1, s11, e1, e11, heq, ?_⟩
  rw [heq]
  exact equal_of_agree cfg s1 s1 rfl (allocated_n_le s1 a1) (allocated_n_le s1 a1)
    (fun _ _ => rfl)

theorem add_idempotent_witness :
    ∃ s1 s11,
      tw_minhash_add avxBuild (fun _ k => k.length * 4294967299 + 7)
        (some ⟨17, List.replicate 32 0⟩) (some [120]) = some (some s1) ∧
      tw_minhash_add avxBuild (fun _ k => k.length * 4294967299 + 7)
        (some s1) (some [120]) = some (some s11) ∧
      s11 = s1 ∧ tw_minhash_equal avxBuild (some s11) (some s1) = some true :=
  add_idempotent avxBuild (fun _ k => k.length * 4294967299 + 7)
    ⟨17, List.replicate 32 0⟩ [120] (by decide) (by unfold tw_minhash.allocated; decide)

/-- C14: in a build that defines `USE_AVX`, `tw_minhash_estimate` of a sketch of three
registers against itself compares no register at all and returns 0, and for a sketch of
18 registers it counts 16 positions and returns 16/18; the scalar branch returns 1 for
both. -/
theorem estimate_self_avx_below_one :
    tw_minhash_estimate avxBuild (some ⟨3, [5, 6, 7, 0, 0, 0, 0, 0, 0, 0, 0, 0, 0, 0, 0, 0]⟩)
      (some ⟨3, [5, 6, 7, 0, 0, 0, 0, 0, 0, 0, 0, 0, 0, 0, 0, 0]⟩) = some 0 ∧
    tw_minhash_estimate scalarBuild
      (some ⟨3, [5, 6, 7, 0, 0, 0, 0, 0, 0, 0, 0, 0, 0, 0, 0, 0]⟩)
      (some ⟨3, [5, 6, 7, 0, 0, 0, 0, 0, 0, 0, 0, 0, 0, 0, 0, 0]⟩) = some 1 ∧
    tw_minhash_estimate avxBuild (some ⟨18, List.replicate 18 7 ++ List.replicate 14 0⟩)
      (some ⟨18, List.replicate 18 7 ++ List.replicate 14 0⟩) = some (16 / 18) ∧
    tw_minhash_estimate scalarBuild (some ⟨18, List.replicate 18 7 ++ List.replicate 14 0⟩)
      (some ⟨18, List.replicate 18 7 ++ List.replicate 14 0⟩) = some 1 := by
  have h1 : tw_minhash_estimate_count avxBuild
      ⟨3, [5, 6, 7, 0, 0, 0, 0, 0, 0, 0, 0, 0, 0, 0, 0, 0]⟩
      ⟨3, [5, 6, 7, 0, 0, 0, 0, 0, 0, 0, 0, 0, 0, 0, 0, 0]⟩ = some 0 := by rfl
  have h2 : tw_minhash_estimate_count scalarBuild
      ⟨3, [5, 6, 7, 0, 0, 0, 0, 0, 0, 0, 0, 0, 0, 0, 0, 0]⟩
      ⟨3, [5, 6, 7, 0, 0, 0, 0, 0, 0, 0, 0, 0, 0, 0, 0, 0]⟩ = some 3 := by rfl
  have h3 : tw_minhash_estimate_count avxBuild
      ⟨18, List.replicate 18 7 ++ List.replicate 14 0⟩
      ⟨18, List.replicate 18 7 ++ List.replicate 14 0⟩ = some 16 := by rfl
  have h4 : tw_minhash_estimate_count scalarBuild
      ⟨18, List.replicate 18 7 ++ List.replicate 14 0⟩
      ⟨18, List.replicate 18 7 ++ List.replicate 14 0⟩ = some 18 := by rfl
  refine ⟨?_, ?_, ?_, ?_⟩
  · simp only [tw_minhash_estimate, h1]; norm_num
  · simp only [tw_minhash_estimate, h2]; norm_num
  · simp only [tw_minhash_estimate, h3]; norm_num
  · simp only [tw_minhash_estimate, h4]; norm_num

/-- C15: in a build that defines `USE_AVX2`, `tw_minhash_merge` of a sketch of eight
registers into another one, both with the buffer that `tw_minhash_new(8)` allocates, passes
the guards and then accesses the vectors `p_src[2]` and `p_dst[2]` beyond the buffers, so
the call has no outcome in which the registers of the destination are greater than or
equal to their previous values; the scalar branch returns the destination with registers
7, 9, 7, 9, 2, 9, 2, 9, each at least its previous value, and the register count 8. -/
theorem merge_avx2_overrun_no_upward_result :
    (⟨8, [2, 9, 2, 9, 2, 9, 2, 9, 0, 0, 0, 0, 0, 0, 0, 0]⟩ : tw_minhash).allocated ∧
    (⟨8, [7, 7, 7, 7, 0, 0, 0, 0, 0, 0, 0, 0, 0, 0, 0, 0]⟩ : tw_minhash).allocated ∧
    tw_minhash_merge avx2Build
      (some ⟨8, [7, 7, 7, 7, 0, 0, 0, 0, 0, 0, 0, 0, 0, 0, 0, 0]⟩)
      (some ⟨8, [2, 9, 2, 9, 2, 9, 2, 9, 0, 0, 0, 0, 0, 0, 0, 0]⟩) = none ∧
    tw_minhash_merge scalarBuild
      (some ⟨8, [7, 7, 7, 7, 0, 0, 0, 0, 0, 0, 0, 0, 0, 0, 0, 0]⟩)
      (some ⟨8, [2, 9, 2, 9, 2, 9, 2, 9, 0, 0, 0, 0, 0, 0, 0, 0]⟩) =
      some ⟨true, some ⟨8, [7, 7, 7, 7, 0, 0, 0, 0, 0, 0, 0, 0, 0, 0, 0, 0]⟩,
        some ⟨8, [7, 9, 7, 9, 2, 9, 2, 9, 0, 0, 0, 0, 0, 0, 0, 0]⟩⟩ := by
  refine ⟨?_, ?_, by rfl, by rfl⟩
  · unfold tw_minhash.allocated; decide
  · unfold tw_minhash.allocated; decide

/-- C16: in every build, when the sketch is absent, the key is absent or the key is empty,
`tw_minhash_add` returns with the sketch argument exactly as it was (no register and no
register count changes), and the outcome is the same for every hash primitive, which is
therefore not consulted. -/
theorem add_rejected_is_noop (cfg : BuildConfig) (H H' : Nat → List Nat → Nat)
    (hash : Option tw_minhash) (key : Option (List Nat))
    (h : hash = none ∨ key = none ∨ key = some []) :
    tw_minhash_add cfg H hash key = some hash ∧
    tw_minhash_add cfg H' hash key = tw_minhash_add cfg H hash key := by
  rcases h with h | h | h
  · subst h
    cases key <;> exact ⟨rfl, rfl⟩
  · subst h
    cases hash <;> exact ⟨rfl, rfl⟩
  · subst h
    cases hash <;> exact ⟨rfl, rfl⟩

theorem add_rejected_is_noop_witness :
    ((some ⟨3, [5, 6, 7, 0]⟩ : Option tw_minhash) = none ∨
      (some [] : Option (List Nat)) = none ∨ (some [] : Option (List Nat)) = some []) ∧
    (tw_minhash_add avxBuild (fun _ _ => 1) (some ⟨3, [5, 6, 7, 0]⟩) (some []) =
        some (some ⟨3, [5, 6, 7, 0]⟩) ∧
      tw_minhash_add avxBuild (fun _ _ => 2) (some ⟨3, [5, 6, 7, 0]⟩) (some []) =
        tw_minhash_add avxBuild (fun _ _ => 1) (some ⟨3, [5, 6, 7, 0]⟩) (some [])) :=
  ⟨Or.inr (Or.inr rfl),
    add_rejected_is_noop avxBuild (fun _ _ => 1) (fun _ _ => 2) (some ⟨3, [5, 6, 7, 0]⟩)
      (some []) (Or.inr (Or.inr rfl))⟩

/-- C17: for 17 registers and every hash value `(a, b)`, the batched update loop with
vectors of 16, 32 and 64 bytes (4, 8 and 16 lanes) leaves register 16 of a zeroed buffer
at zero, whereas the scalar loop stores `(a + 16 * b) mod 2^32` there. -/
theorem batched_add_skips_register_16 (a b : Nat) :
    (∃ r, add_simd 16 a b 17 (List.replicate 32 0) = some r ∧ r.getD 16 0 = 0) ∧
    (∃ r, add_simd 32 a b 17 (List.replicate 32 0) = some r ∧ r.getD 16 0 = 0) ∧
    (∃ r, add_simd 64 a b 17 (List.replicate 32 0) = some r ∧ r.getD 16 0 = 0) ∧
    (∃ r, add_scalar a b 17 (List.replicate 32 0) = some r ∧
      r.getD 16 0 = (a + 16 * b) % 2 ^ 32) := by
  refine ⟨?_, ?_, ?_, ?_⟩
  · obtain ⟨r, hr, _, hp⟩ := add_simd_spec 16 a b 17 (Or.inl rfl) (List.replicate 32 0)
      (by simp)
    exact ⟨r, hr, by simp [List.getD_eq_getElem?_getD, hp 16]⟩
  · obtain ⟨r, hr, _, hp⟩ := add_simd_spec 32 a b 17 (Or.inr (Or.inl rfl))
      (List.replicate 32 0) (by simp)
    exact ⟨r, hr, by simp [List.getD_eq_getElem?_getD, hp 16]⟩
  · obtain ⟨r, hr, _, hp⟩ := add_simd_spec 64 a b 17 (Or.inr (Or.inr rfl))
      (List.replicate 32 0) (by simp)
    exact ⟨r, hr, by simp [List.getD_eq_getElem?_getD, hp 16]⟩
  · obtain ⟨r, hr, _, hp⟩ := add_scalar_spec a b 17 (List.replicate 32 0) (by simp)
    exact ⟨r, hr, by simp [List.getD_eq_getElem?_getD, hp 16]⟩

/-- C18: for 17 registers that are all equal in both buffers, the batched counting loop
with vectors of 16, 32 and 64 bytes leaves `n_registers_eq` at 16, whereas the scalar loop
counts 17. -/
theorem batched_estimate_misses_register_16 :
    est_simd 16 17 (List.replicate 32 0) (List.replicate 32 0) = some 16 ∧
    est_simd 32 17 (List.replicate 32 0) (List.replicate 32 0) = some 16 ∧
    est_simd 64 17 (List.replicate 32 0) (List.replicate 32 0) = some 16 ∧
    est_scalar 17 (List.replicate 32 0) (List.replicate 32 0) = some 17 ∧
    countEq (List.replicate 32 0) (List.replicate 32 0) 17 = 17 := by
  refine ⟨by rfl, by rfl, by rfl, by rfl, by rfl⟩

/-- C19, counterexample: in a build that defines `USE_AVX` (four lanes, blocks of sixteen
registers) and for 21 registers, which is a multiple neither of four nor of sixteen,
`tw_minhash_merge` runs a second block of four vectors over registers 16 to 31, so the
trailing registers 16 to 20 of the destination receive `max(0, 9) = 9` and do not keep
their previous value 0. -/
theorem merge_avx_21_updates_trailing_registers :
    tw_minhash_merge avxBuild (some ⟨21, List.replicate 21 9 ++ List.replicate 11 0⟩)
        (some ⟨21, List.replicate 32 0⟩) =
      some ⟨true, some ⟨21, List.replicate 21 9 ++ List.replicate 11 0⟩,
        some ⟨21, List.replicate 21 9 ++ List.replicate 11 0⟩⟩ ∧
    21 % 4 ≠ 0 ∧ 21 % 16 ≠ 0 ∧
    (⟨21, List.replicate 21 9 ++ List.replicate 11 0⟩ : tw_minhash).reg 20 ≠
      (⟨21, List.replicate 32 0⟩ : tw_minhash).reg 20 := by
  refine ⟨by rfl, by decide, by decide, by decide⟩

/-- C19, amended: in a vector build, where `MINH_MAX_LOOP` steps over
`n_vectors = floor(n_registers / lanes)` vectors four at a time, the loop processes the
first `ceil(n_vectors / 4) * 4 * lanes` registers; when these lie in both buffers, the
merge returns the destination, each of these registers receives `max(dst[i], src[i])` and
every later register keeps its previous value. When `n_vectors` is a multiple of four the
processed range ends at `n_vectors * lanes`, at or before `n_registers`, so the trailing
registers that do not fill a vector are skipped; when it is not, the processed range
extends beyond `n_registers` and no register is skipped. -/
theorem batched_merge_processed_range (cfg : BuildConfig) (simd_size : Nat)
    (src dst : tw_minhash) (hc : simdSize cfg = some simd_size)
    (hn : src.n_registers = dst.n_registers)
    (hs : mergeCover cfg dst.n_registers ≤ src.registers.length)
    (hd : mergeCover cfg dst.n_registers ≤ dst.registers.length) :
    ∃ d, tw_minhash_merge cfg (some src) (some dst) = some ⟨true, some src, some d⟩ ∧
      d.n_registers = dst.n_registers ∧
      (∀ i, i < mergeCover cfg dst.n_registers → d.reg i = max (dst.reg i) (src.reg i)) ∧
      (∀ i, mergeCover cfg dst.n_registers ≤ i → d.reg i = dst.reg i) ∧
      mergeCover cfg dst.n_registers =
        (dst.n_registers * 4 / simd_size + 3) / 4 * 4 * (simd_size / 4) ∧
      (dst.n_registers * 4 / simd_size % 4 = 0 →
        mergeCover cfg dst.n_registers = dst.n_registers * 4 / simd_size * (simd_size / 4) ∧
        mergeCover cfg dst.n_registers ≤ dst.n_registers) ∧
      (dst.n_registers * 4 / simd_size % 4 ≠ 0 →
        dst.n_registers < mergeCover cfg dst.n_registers) := by
  obtain ⟨d, h1, h2, h3, h4⟩ := tw_minhash_merge_spec cfg src dst hn hs hd
  have hcov : mergeCover cfg dst.n_registers =
      (dst.n_registers * 4 / simd_size + 3) / 4 * 4 * (simd_size / 4) := by
    simp only [mergeCover, hc]
  have hsz : simd_size = 16 ∨ simd_size = 32 ∨ simd_size = 64 := by
    rcases simdSize_cases cfg with h | h | h | h <;> rw [h] at hc <;> cases hc <;> simp
  refine ⟨d, h1, h2, ?_, ?_, hcov, ?_, ?_⟩
  · intro i hi
    have hid : i < dst.registers.length := by omega
    simp only [tw_minhash.reg, List.getD_eq_getElem?_getD, h4 i, hi, if_true,
      List.getElem?_eq_getElem hid, Option.map_some', Option.getD_some]
  · intro i hi
    simp only [tw_minhash.reg, List.getD_eq_getElem?_getD, h4 i,
      show ¬ i < mergeCover cfg dst.n_registers by omega, if_false]
  · intro h4'
    rw [hcov]
    rcases hsz with h | h | h <;> subst h <;> omega
  · intro h4'
    rw [hcov]
    rcases hsz with h | h | h <;> subst h <;> omega

theorem batched_merge_processed_range_witness :
    ∃ d, tw_minhash_merge avxBuild (some ⟨17, List.replicate 17 9 ++ List.replicate 15 0⟩)
        (some ⟨17, List.replicate 32 0⟩) =
        some ⟨true, some ⟨17, List.replicate 17 9 ++ List.replicate 15 0⟩, some d⟩ ∧
      d.n_registers = (⟨17, List.replicate 32 0⟩ : tw_minhash).n_registers ∧
      (∀ i, i < mergeCover avxBuild (⟨17, List.replicate 32 0⟩ : tw_minhash).n_registers →
        d.reg i = max ((⟨17, List.replicate 32 0⟩ : tw_minhash).reg i)
          ((⟨17, List.replicate 17 9 ++ List.replicate 15 0⟩ : tw_minhash).reg i)) ∧
      (∀ i, mergeCover avxBuild (⟨17, List.replicate 32 0⟩ : tw_minhash).n_registers ≤ i →
        d.reg i = (⟨17, List.replicate 32 0⟩ : tw_minhash).reg i) ∧
      mergeCover avxBuild (⟨17, List.replicate 32 0⟩ : tw_minhash).n_registers =
        ((⟨17, List.replicate 32 0⟩ : tw_minhash).n_registers * 4 / 16 + 3) / 4 * 4 *
          (16 / 4) ∧
      ((⟨17, List.replicate 32 0⟩ : tw_minhash).n_registers * 4 / 16 % 4 = 0 →
        mergeCover avxBuild (⟨17, List.replicate 32 0⟩ : tw_minhash).n_registers =
          (⟨17, List.replicate 32 0⟩ : tw_minhash).n_registers * 4 / 16 * (16 / 4) ∧
        mergeCover avxBuild (⟨17, List.replicate 32 0⟩ : tw_minhash).n_registers ≤
          (⟨17, List.replicate 32 0⟩ : tw_minhash).n_registers) ∧
      ((⟨17, List.replicate 32 0⟩ : tw_minhash).n_registers * 4 / 16 % 4 ≠ 0 →
        (⟨17, List.replicate 32 0⟩ : tw_minhash).n_registers <
          mergeCover avxBuild (⟨17, List.replicate 32 0⟩ : tw_minhash).n_registers) :=
  batched_merge_processed_range avxBuild 16
    ⟨17, List.replicate 17 9 ++ List.replicate 15 0⟩ ⟨17, List.replicate 32 0⟩
    (by rfl) (by rfl) (by decide) (by decide)

/-- C20: in a build that defines `USE_AVX`, for two sketches of 17 registers that differ in
register 16 only, `tw_minhash_equal` is true although `tw_minhash_estimate` counts 16
positions, not 17, and returns 16/17, which is below 1; in the scalar branch
`tw_minhash_equal` is false and the count is 16. -/
theorem equal_true_with_count_below_n_avx :
    tw_minhash_equal avxBuild (some ⟨17, List.replicate 32 3⟩)
      (some ⟨17, List.replicate 16 3 ++ 8 :: List.replicate 15 3⟩) = some true ∧
    tw_minhash_estimate_count avxBuild ⟨17, List.replicate 32 3⟩
      ⟨17, List.replicate 16 3 ++ 8 :: List.replicate 15 3⟩ = some 16 ∧
    tw_minhash_estimate avxBuild (some ⟨17, List.replicate 32 3⟩)
      (some ⟨17, List.replicate 16 3 ++ 8 :: List.replicate 15 3⟩) = some (16 / 17) ∧
    tw_minhash_equal scalarBuild (some ⟨17, List.replicate 32 3⟩)
      (some ⟨17, List.replicate 16 3 ++ 8 :: List.replicate 15 3⟩) = some false ∧
    tw_minhash_estimate_count scalarBuild ⟨17, List.replicate 32 3⟩
      ⟨17, List.replicate 16 3 ++ 8 :: List.replicate 15 3⟩ = some 16 := by
  have h1 : tw_minhash_estimate_count avxBuild ⟨17, List.replicate 32 3⟩
      ⟨17, List.replicate 16 3 ++ 8 :: List.replicate 15 3⟩ = some 16 := by rfl
  refine ⟨by rfl, h1, ?_, by rfl, by rfl⟩
  simp only [tw_minhash_estimate, h1]
  norm_num

end Twiddle
